import Mathlib

/-!
Verification of the dungeondraft asset-pack codec.

The development shallowly embeds the Rust sources of the
`dungeondraft-asset-tools` repository (`src/asset_pack/mod.rs`,
`src/asset_pack/file_meta_data.rs`, `src/asset_pack/godot_version.rs`,
`src/asset_pack/tags.rs`).  Byte streams are `List Nat` (each element a
byte value), Rust `String`s are their UTF-8 byte lists, `HashMap`s are
association lists, `HashSet`s are lists.  The JSON codec provided by the
`serde_json` crate is an external collaborator of the program and is
modelled by an abstract `Codec` record whose only assumed property is
that decoding inverts encoding.
-/

namespace DD

/-- Byte strings: a Rust `String` as its list of UTF-8 byte values. -/
abbrev Str := List Nat

/-! ## Little-endian integer encoding (the `byteorder` crate, LE) -/

/-- `k` little-endian bytes of the natural number `n` (mod `256^k`). -/
def natToBytesLE : Nat → Nat → List Nat
  | 0, _ => []
  | k + 1, n => (n % 256) :: natToBytesLE k (n / 256)

/-- Value of a little-endian byte list. -/
def bytesToNatLE : List Nat → Nat
  | [] => 0
  | b :: r => b + 256 * bytesToNatLE r

/-- Bytes written for an `i32` value (`write_i32::<LE>`); the Rust cast of a
`usize` to `i32` and the two's-complement byte layout both reduce to
writing `n mod 2^32` little-endian. -/
def writeI32Nat (n : Nat) : List Nat := natToBytesLE 4 (n % 2 ^ 32)

/-- Bytes written for an `i32` field stored as a signed value. -/
def writeI32Int (v : Int) : List Nat := natToBytesLE 4 (v % (2 ^ 32 : Int)).toNat

/-- Bytes written for an `i64` value obtained by casting a `usize`/`u64`. -/
def writeI64Nat (n : Nat) : List Nat := natToBytesLE 8 (n % 2 ^ 64)

/-- Errors of `AssetPack::from_read`.  The Rust function returns
`anyhow::Result`; `missingMetaPanic` is the exception: it models the
`maybe_meta.unwrap()` panic (a process abort, not a returned error). -/
inductive PackErr where
  | readErr
  | utf8Err
  | metaParseErr
  | tagsParseErr
  | missingMetaPanic
deriving DecidableEq

/-- `read_exact` into an `n`-byte buffer: the bytes and the rest of the
stream, or an error if the stream is too short. -/
def readBytes (n : Nat) (s : List Nat) : Except PackErr (List Nat × List Nat) :=
  if n ≤ s.length then .ok (s.take n, s.drop n) else .error .readErr

/-- `read_i32::<LE>`: four bytes, interpreted as a signed 32-bit value. -/
def readI32 (s : List Nat) : Except PackErr (Int × List Nat) :=
  match readBytes 4 s with
  | .ok (b, r) =>
    let n := bytesToNatLE b
    .ok (if n < 2 ^ 31 then (n : Int) else (n : Int) - 2 ^ 32, r)
  | .error e => .error e

/-- `read_i64::<LE>`: eight bytes, interpreted as a signed 64-bit value. -/
def readI64 (s : List Nat) : Except PackErr (Int × List Nat) :=
  match readBytes 8 s with
  | .ok (b, r) =>
    let n := bytesToNatLE b
    .ok (if n < 2 ^ 63 then (n : Int) else (n : Int) - 2 ^ 64, r)
  | .error e => .error e

/-- Rust `v as usize` on an `i32` (64-bit target: sign-extend, reinterpret). -/
def i32AsUsize (v : Int) : Nat := (v % (2 ^ 64 : Int)).toNat

/-- Rust `v as usize` / `v as u64` on an `i64` (reinterpret the 64 bits). -/
def i64AsUsize (v : Int) : Nat := (v % (2 ^ 64 : Int)).toNat

/-! ## String constants (UTF-8 byte values of the Rust constants) -/

/-- `ASSET_PACK_MAGIC_FILE_HEADER` = `[0x47, 0x44, 0x50, 0x43]` (`GDPC`). -/
def magicBytes : List Nat := [71, 68, 80, 67]

/-- `RESOURCE_PATH_PREFIX` = `"res://"`. -/
def resPfx : Str := [114, 101, 115, 58, 47, 47]

/-- `ASSET_PACK_PREFIX` = `"packs/"`. -/
def packsPfx : Str := [112, 97, 99, 107, 115, 47]

/-- The path segment `"packs"` (the pack prefix without its slash). -/
def packsSeg : Str := [112, 97, 99, 107, 115]

/-- `PACK_FILE_NAME` = `"pack.json"`. -/
def packFileName : Str := [112, 97, 99, 107, 46, 106, 115, 111, 110]

/-- `TAGS_FILE_NAME` = `"data/default.dungeondraft_tags"`. -/
def tagsFileName : Str :=
  [100, 97, 116, 97, 47, 100, 101, 102, 97, 117, 108, 116, 46,
   100, 117, 110, 103, 101, 111, 110, 100, 114, 97, 102, 116, 95,
   116, 97, 103, 115]

/-- `OBJECT_FILES_PREFIX` = `"textures/objects/"`. -/
def objectsPfx : Str :=
  [116, 101, 120, 116, 117, 114, 101, 115, 47,
   111, 98, 106, 101, 99, 116, 115, 47]

/-- `".json"`. -/
def dotJson : Str := [46, 106, 115, 111, 110]

/-- `"json"` (the extension checked by `is_root_json_file`). -/
def jsonExt : Str := [106, 115, 111, 110]

/-! ## String operations used for path handling -/

/-- `pat.isPrefixOf s` as a Boolean on byte strings (Rust `starts_with`). -/
def hasPfx : Str → Str → Bool
  | [], _ => true
  | _ :: _, [] => false
  | a :: as, b :: bs => a == b && hasPfx as bs

/-- Rust `ends_with`. -/
def hasSfx (pat s : Str) : Bool := hasPfx pat.reverse s.reverse

/-- Helper for `trimStartMatches`: each round removes at least one byte,
so a fuel of `s.length` is always enough. -/
def trimStartMatchesFuel : Nat → Str → Str → Str
  | 0, _, s => s
  | fuel + 1, pat, s =>
    if pat ≠ [] ∧ hasPfx pat s then
      trimStartMatchesFuel fuel pat (s.drop pat.length)
    else s

/-- Rust `str::trim_start_matches`: repeatedly removes the prefix `pat`
while it is present. -/
def trimStartMatches (pat : Str) (s : Str) : Str :=
  trimStartMatchesFuel s.length pat s

/-- Rust `str::split_once(c)`: the pieces before and after the first
occurrence of byte `c`, if any. -/
def splitOnce (c : Nat) : Str → Option (Str × Str)
  | [] => none
  | b :: r =>
    if b = c then some ([], r)
    else match splitOnce c r with
      | some (x, y) => some (b :: x, y)
      | none => none

/-- Splitting a list at every occurrence of byte `c`, keeping empty pieces
(the raw `/`-separated pieces of a path). -/
def splitAll (c : Nat) : Str → List Str
  | [] => [[]]
  | b :: r =>
    if b = c then [] :: splitAll c r
    else match splitAll c r with
      | t :: ts => (b :: t) :: ts
      | [] => [[b]]

/-- A component of a Rust `Path` (Unix rules, as used by `PathBuf`). -/
inductive PComp where
  | rootDir
  | curDir
  | parentDir
  | normal (name : Str)
deriving DecidableEq

/-- Turns a raw non-empty, non-`"."` path piece into its component. -/
def toComp (x : Str) : PComp :=
  if x = [46, 46] then .parentDir else .normal x

/-- Models `Path::components()` for forward-slash paths: empty and `"."`
pieces vanish, except that a leading `/` yields a root component and a
leading `"."` of a relative path is kept as a `CurDir` component. -/
def rustComponents (s : Str) : List PComp :=
  if s = [] then []
  else
    let raw := splitAll 47 s
    let comps := (raw.filter (fun x => x ≠ [] && x ≠ [46])).map toComp
    if raw.head? = some [] then .rootDir :: comps
    else if raw.head? = some [46] then .curDir :: comps
    else comps

/-- Models `Path::file_name()`: the final normal component, if any. -/
def rustFileName (s : Str) : Option Str :=
  match (rustComponents s).getLast? with
  | some (.normal x) => some x
  | _ => none

/-- Models `path.parent() == Some(Path::new(""))`: the path consists of
exactly one component and is not the bare root. -/
def parentIsEmpty (s : Str) : Bool :=
  match rustComponents s with
  | [.rootDir] => false
  | [_] => true
  | _ => false

/-- Models `Path::extension()`: the part of the file name after its last
dot, unless the name has no dot or only a leading one. -/
def rustExtension (s : Str) : Option Str :=
  match rustFileName s with
  | none => none
  | some f =>
    let revTail := f.reverse.takeWhile (fun b => b ≠ 46)
    if revTail.length = f.length then none
    else if f.length - revTail.length - 1 = 0 then none
    else some revTail.reverse

/-! ## The path classification predicates of `mod.rs` -/

/-- `is_root_json_file`: extension is `json` and parent is the empty path. -/
def is_root_json_file (s : Str) : Bool :=
  (rustExtension s).getD [] == jsonExt && parentIsEmpty s

/-- `is_pack_file`: file name equals `pack.json`. -/
def is_pack_file (s : Str) : Bool :=
  rustFileName s == some packFileName

/-- `is_tags_file`: path ends with `data/default.dungeondraft_tags`. -/
def is_tags_file (s : Str) : Bool := hasSfx tagsFileName s

/-- `is_objects_file`: path starts with `textures/objects/`. -/
def is_objects_file (s : Str) : Bool := hasPfx objectsPfx s

/-! ## UTF-8 validity (`String::from_utf8` in `read_string`) -/

/-- A UTF-8 continuation byte. -/
def utf8Cont (b : Nat) : Bool := 128 ≤ b && b ≤ 191

/-- For a multi-byte leader: the admissible range of the next byte and the
number of further continuation bytes. -/
def leaderInfo (b : Nat) : Option (Nat × Nat × Nat) :=
  if 194 ≤ b && b ≤ 223 then some (128, 191, 0)
  else if b = 224 then some (160, 191, 1)
  else if 225 ≤ b && b ≤ 236 then some (128, 191, 1)
  else if b = 237 then some (128, 159, 1)
  else if 238 ≤ b && b ≤ 239 then some (128, 191, 1)
  else if b = 240 then some (144, 191, 2)
  else if 241 ≤ b && b ≤ 243 then some (128, 191, 2)
  else if b = 244 then some (128, 143, 2)
  else none

/-- Whether a byte list is valid UTF-8 (the check done by
`String::from_utf8`, rejecting overlong forms and surrogates). -/
def utf8Valid : List Nat → Bool
  | [] => true
  | b :: r =>
    if b < 128 then utf8Valid r
    else match leaderInfo b with
      | none => false
      | some (lo, hi, extra) =>
        match r with
        | [] => false
        | c1 :: r1 =>
          if lo ≤ c1 && c1 ≤ hi then
            match extra, r1 with
            | 0, rr => utf8Valid rr
            | 1, c2 :: r2 => utf8Cont c2 && utf8Valid r2
            | 2, c2 :: c3 :: r3 => utf8Cont c2 && utf8Cont c3 && utf8Valid r3
            | _, _ => false
          else false

/-! ## Path normalization (`FileMetaData::from_read`) -/

/-- The namespace segment and remainder produced while decoding a stored
path: strip `res://`, strip `packs/`, then split at the first `/`;
without a `/` the namespace is empty and the whole rest is the path. -/
def normalizeSplit (s : Str) : Str × Str :=
  let t := trimStartMatches packsPfx (trimStartMatches resPfx s)
  match splitOnce 47 t with
  | some (a, rest) => (a, rest)
  | none => ([], t)

/-- The normalized path stored in a decoded `FileMetaData`. -/
def normalizePath (s : Str) : Str := (normalizeSplit s).2

/-! ## Data model -/

/-- `GodotVersion`: four `i32` fields.  Modelled as integers; a value
produced by the Rust type always lies in `[-2^31, 2^31)`. -/
structure GodotVersion where
  version : Int
  major : Int
  minor : Int
  revision : Int
deriving DecidableEq

def GodotVersion.size_in_bytes : Nat := 4 * 4

/-- `FileMetaData`: one directory entry.  `offset` is the `u64` value,
`size` the `usize` value, `md5` the 16 checksum bytes. -/
structure FileMetaData where
  path : Str
  offset : Nat
  size : Nat
  md5 : List Nat
deriving DecidableEq

/-- `FileMetaData::new`: offset `0` and an all-zero checksum. -/
def FileMetaData.new (path : Str) (size : Nat) : FileMetaData :=
  ⟨path, 0, size, List.replicate 16 0⟩

/-- `ColorOverrides`.  The three `f32` fields are never interpreted by the
program; they are carried as their 32-bit patterns. -/
structure ColorOverrides where
  enabled : Bool
  min_redness : Nat
  min_saturation : Nat
  red_tolerance : Nat
deriving DecidableEq

/-- `PackMeta`: the pack metadata document. -/
structure PackMeta where
  name : Str
  id : Str
  version : Str
  author : Str
  custom_color_overrides : Option ColorOverrides
deriving DecidableEq

/-- `Tags`: the tag index.  The two `HashMap<String, HashSet<String>>`
fields are modelled as association lists of lists. -/
structure Tags where
  tags : List (Str × List Str)
  sets : List (Str × List Str)
deriving DecidableEq

/-- `Tags::new()`: both maps empty. -/
def Tags.new : Tags := ⟨[], []⟩

/-- `AssetPack`: the in-memory pack.  File maps are association lists from
normalized path to payload bytes. -/
structure AssetPack where
  godot_version : GodotVersion
  meta : PackMeta
  tags : Tags
  object_files : List (Str × List Nat)
  other_files : List (Str × List Nat)
deriving DecidableEq

/-- The JSON encode/decode collaborator (the `serde_json` crate), kept
abstract; theorems that rely on decoding inverting encoding take that law
as an explicit hypothesis. -/
structure Codec (α : Type) where
  enc : α → List Nat
  dec : List Nat → Option α

/-- The inversion law assumed of the JSON collaborator. -/
def Codec.lawful {α : Type} (c : Codec α) : Prop :=
  ∀ a, c.dec (c.enc a) = some a

/-! ## Association list operations (`HashMap` insert / lookup / key test) -/

/-- `HashMap::contains_key`. -/
def containsKey {α : Type} (k : Str) (m : List (Str × α)) : Bool :=
  m.any (fun kv => kv.1 == k)

/-- `HashMap::insert`: replace the value of an existing key, else add the
binding. -/
def insertA {α : Type} : List (Str × α) → Str → α → List (Str × α)
  | [], k, v => [(k, v)]
  | (k', v') :: t, k, v =>
    if k' = k then (k', v) :: t else (k', v') :: insertA t k v

/-- `HashMap::get`. -/
def lookupA {α : Type} (k : Str) : List (Str × α) → Option α
  | [] => none
  | (k', v) :: t => if k' = k then some v else lookupA k t

/-! ## `AssetPack::from_read` -/

/-- One decoded directory entry (`FileMetaData::from_read`): `i32` path
length, that many path bytes (validated as UTF-8 and normalized), `i64`
offset, `i64` size, 16 checksum bytes. -/
def readEntry (s : List Nat) : Except PackErr (FileMetaData × List Nat) :=
  match readI32 s with
  | .error e => .error e
  | .ok (li, s) =>
    match readBytes (i32AsUsize li) s with
    | .error e => .error e
    | .ok (pb, s) =>
      if utf8Valid pb then
        match readI64 s with
        | .error e => .error e
        | .ok (oi, s) =>
          match readI64 s with
          | .error e => .error e
          | .ok (si, s) =>
            match readBytes 16 s with
            | .error e => .error e
            | .ok (md5, s) =>
              .ok (⟨normalizePath pb, i64AsUsize oi, i64AsUsize si, md5⟩, s)
      else .error .utf8Err

/-- Reading `n` directory entries in order. -/
def readEntries : Nat → List Nat → Except PackErr (List FileMetaData × List Nat)
  | 0, s => .ok ([], s)
  | n + 1, s =>
    match readEntry s with
    | .error e => .error e
    | .ok (e, s') =>
      match readEntries n s' with
      | .error err => .error err
      | .ok (es, s'') => .ok (e :: es, s'')

/-- Header and directory of `from_read`: the 4 magic bytes (compared but
only warned about, then the stream is repositioned to offset 4), the
version record, the 64 reserved bytes, the `i32` file count and that many
directory entries. -/
def parseDirectory (s : List Nat) :
    Except PackErr (GodotVersion × List FileMetaData × List Nat) :=
  match readBytes 4 s with
  | .error e => .error e
  | .ok (_, s0) =>
    match readI32 s0 with
    | .error e => .error e
    | .ok (v1, s1) =>
      match readI32 s1 with
      | .error e => .error e
      | .ok (v2, s2) =>
        match readI32 s2 with
        | .error e => .error e
        | .ok (v3, s3) =>
          match readI32 s3 with
          | .error e => .error e
          | .ok (v4, s4) =>
            match readBytes 64 s4 with
            | .error e => .error e
            | .ok (_, s5) =>
              match readI32 s5 with
              | .error e => .error e
              | .ok (ci, s6) =>
                match readEntries (i32AsUsize ci) s6 with
                | .error e => .error e
                | .ok (entries, s7) => .ok (⟨v1, v2, v3, v4⟩, entries, s7)

/-- The comparison used by `files_meta.sort()`: `Ord` on `FileMetaData`
compares offsets only. -/
def entryLe (a b : FileMetaData) : Bool := decide (a.offset ≤ b.offset)

/-- Stable insertion of `x` into a sorted list: `x` goes in front of the
first element it is `≤` to, hence after all earlier equal elements. -/
def insSorted (x : FileMetaData) : List FileMetaData → List FileMetaData
  | [] => [x]
  | y :: ys => if entryLe x y then x :: y :: ys else y :: insSorted x ys

/-- `Vec::sort()`: a stable sort by offset (stability and sortedness
determine the result uniquely, so stable insertion sort models it). -/
def insSort : List FileMetaData → List FileMetaData
  | [] => []
  | x :: xs => insSorted x (insSort xs)

/-- The accumulator of the payload-classification loop. -/
structure ReadState where
  object_files : List (Str × List Nat)
  other_files : List (Str × List Nat)
  maybe_meta : Option PackMeta
  maybe_tags : Option Tags
deriving DecidableEq

/-- Classification of one payload, in the branch order of the source:
root-level `.json` file → pack metadata; tags file → tag index; object
prefix → `object_files`; `pack.json` → dropped; rest → `other_files`. -/
def classifyStep (cm : Codec PackMeta) (ct : Codec Tags) (st : ReadState)
    (m : FileMetaData) (payload : List Nat) : Except PackErr ReadState :=
  if is_root_json_file m.path then
    match cm.dec payload with
    | some pm => .ok { st with maybe_meta := some pm }
    | none => .error .metaParseErr
  else if is_tags_file m.path then
    match ct.dec payload with
    | some tg => .ok { st with maybe_tags := some tg }
    | none => .error .tagsParseErr
  else if is_objects_file m.path then
    .ok { st with object_files := insertA st.object_files m.path payload }
  else if is_pack_file m.path then .ok st
  else .ok { st with other_files := insertA st.other_files m.path payload }

/-- The payload loop: for each entry (already offset-sorted), read exactly
`size` bytes and classify them. -/
def classifyFold (cm : Codec PackMeta) (ct : Codec Tags) :
    List FileMetaData → List Nat → ReadState → Except PackErr ReadState
  | [], _, st => .ok st
  | m :: rest, s, st =>
    match readBytes m.size s with
    | .error e => .error e
    | .ok (payload, s') =>
      match classifyStep cm ct st m payload with
      | .error e => .error e
      | .ok st' => classifyFold cm ct rest s' st'

/-- `AssetPack::from_read`.  `missingMetaPanic` models the
`maybe_meta.unwrap()` panic on packs without a metadata document. -/
def from_read (cm : Codec PackMeta) (ct : Codec Tags) (s : List Nat) :
    Except PackErr AssetPack :=
  match parseDirectory s with
  | .error e => .error e
  | .ok (gv, entries, rest) =>
    match classifyFold cm ct (insSort entries) rest ⟨[], [], none, none⟩ with
    | .error e => .error e
    | .ok st =>
      match st.maybe_meta with
      | some pm =>
        .ok ⟨gv, pm, st.maybe_tags.getD Tags.new, st.object_files, st.other_files⟩
      | none => .error .missingMetaPanic

/-! ## `AssetPack::to_write` -/

/-- `"res://packs/" ++ id`, the absolute-path prefix used on write. -/
def packPathPfx (id : Str) : Str := resPfx ++ packsPfx ++ id

/-- `FileMetaData::calculate_binary_size`. -/
def calculate_binary_size (m : FileMetaData) : Nat :=
  4 + m.path.length + 8 + 8 + 16

/-- The `files` vector built by `to_write`: the root metadata document,
its in-namespace `pack.json` duplicate, the tags document and one entry
per object and other file, in iteration order. -/
def writeFiles (cm : Codec PackMeta) (ct : Codec Tags) (p : AssetPack) :
    List (FileMetaData × List Nat) :=
  let pfx := packPathPfx p.meta.id
  let metaBytes := cm.enc p.meta
  let tagsBytes := ct.enc p.tags
  (FileMetaData.new (pfx ++ dotJson) metaBytes.length, metaBytes) ::
  (FileMetaData.new (pfx ++ 47 :: packFileName) metaBytes.length, metaBytes) ::
  (FileMetaData.new (pfx ++ 47 :: tagsFileName) tagsBytes.length, tagsBytes) ::
  (p.object_files ++ p.other_files).map
    (fun kv => (FileMetaData.new (pfx ++ 47 :: kv.1) kv.2.length, kv.2))

/-- `AssetPack::calculate_files_block_starting_offset`: header size
(magic + version + reserved + count) plus the directory's encoded size. -/
def calculate_files_block_starting_offset
    (files : List (FileMetaData × List Nat)) : Nat :=
  4 + GodotVersion.size_in_bytes + 64 + 4 +
    (files.map (fun e => calculate_binary_size e.1)).sum

/-- Offset assignment: each entry gets the running offset, which then
advances by the entry's size. -/
def assignOffsets (off : Nat) :
    List (FileMetaData × List Nat) → List (FileMetaData × List Nat)
  | [] => []
  | (m, d) :: t => ({ m with offset := off }, d) :: assignOffsets (off + m.size) t

/-- `FileMetaData::to_write`: path length as `i32`, path bytes, offset and
size as `i64`, 16 zero checksum bytes. -/
def entryBytes (m : FileMetaData) : List Nat :=
  writeI32Nat m.path.length ++ m.path ++ writeI64Nat m.offset ++
    writeI64Nat m.size ++ List.replicate 16 0

/-- The `files` vector of `to_write` after offset assignment. -/
def writeFilesAssigned (cm : Codec PackMeta) (ct : Codec Tags)
    (p : AssetPack) : List (FileMetaData × List Nat) :=
  assignOffsets (calculate_files_block_starting_offset (writeFiles cm ct p))
    (writeFiles cm ct p)

/-- `AssetPack::to_write`: magic, version, zeroed reserved region, file
count, all directory entries, then all payloads in the same order. -/
def to_write (cm : Codec PackMeta) (ct : Codec Tags) (p : AssetPack) :
    List Nat :=
  let files := writeFilesAssigned cm ct p
  magicBytes ++
    writeI32Int p.godot_version.version ++ writeI32Int p.godot_version.major ++
    writeI32Int p.godot_version.minor ++ writeI32Int p.godot_version.revision ++
    List.replicate 64 0 ++ writeI32Nat files.length ++
    (files.map (fun e => entryBytes e.1)).flatten ++ (files.map (fun e => e.2)).flatten

/-! ## `AssetPack::clean_tags` -/

/-- `AssetPack::clean_tags`, phase by phase: drop unknown files from each
tag, drop empty tags, drop unknown tags from each set (against the
already pruned tag map), drop empty sets. -/
def clean_tags (p : AssetPack) : AssetPack :=
  let tags1 := p.tags.tags.map
    (fun tv => (tv.1, tv.2.filter (fun f => containsKey f p.object_files)))
  let tags2 := tags1.filter (fun tv => !tv.2.isEmpty)
  let sets1 := p.tags.sets.map
    (fun sv => (sv.1, sv.2.filter (fun t => containsKey t tags2)))
  let sets2 := sets1.filter (fun sv => !sv.2.isEmpty)
  { p with tags := ⟨tags2, sets2⟩ }

/-- The payload loop with the payload of each entry already attached
(`classifyFold` after the stream has been sliced). -/
def classifySteps (cm : Codec PackMeta) (ct : Codec Tags) :
    List (FileMetaData × List Nat) → ReadState → Except PackErr ReadState
  | [], st => .ok st
  | (m, d) :: t, st =>
    match classifyStep cm ct st m d with
    | .error e => .error e
    | .ok st' => classifySteps cm ct t st'

/-! ## Validity of an `AssetPack` value (the section-3 invariants) -/

/-- No key occurs twice in an association list. -/
def keysNodupB {α : Type} : List (Str × α) → Bool
  | [] => true
  | (k, _) :: t => !containsKey k t && keysNodupB t

/-- An `i32` field value is representable. -/
def i32Range (v : Int) : Bool := decide (-(2 ^ 31) ≤ v) && decide (v < 2 ^ 31)

/-- A valid `object_files` key: it lies under the object-texture prefix,
is not a tag-index path, and is a Rust string (valid UTF-8). -/
def validKeyObj (k : Str) : Bool :=
  is_objects_file k && !is_tags_file k && utf8Valid k

/-- A valid `other_files` key: classified by the reader as an ordinary
file (none of the special paths), and valid UTF-8. -/
def validKeyOther (k : Str) : Bool :=
  !is_objects_file k && !is_root_json_file k && !is_tags_file k &&
    !is_pack_file k && utf8Valid k

/-- The section-3 invariants of an `AssetPack` value: the pack id is a
genuine namespace segment (non-empty, slash-free, valid UTF-8), the
version fields are `i32` values, the file maps have no duplicate keys and
only keys of their respective classification, and neither map contains a
metadata or tag-index virtual path. -/
def validPackB (p : AssetPack) : Bool :=
  decide (p.meta.id ≠ []) && decide ((47 : Nat) ∉ p.meta.id) &&
    utf8Valid p.meta.id &&
    i32Range p.godot_version.version && i32Range p.godot_version.major &&
    i32Range p.godot_version.minor && i32Range p.godot_version.revision &&
    keysNodupB p.object_files && keysNodupB p.other_files &&
    p.object_files.all (fun kv => validKeyObj kv.1) &&
    p.other_files.all (fun kv => validKeyOther kv.1)

/-- Propositional form of `validPackB`. -/
def ValidPack (p : AssetPack) : Prop := validPackB p = true

/-- The finite-width side conditions under which the fixed-width header
fields cannot overflow: fewer than `2^31` directory entries, stored paths
shorter than `2^31` bytes, a stream shorter than `2^64` bytes. -/
def sizeOkB (cm : Codec PackMeta) (ct : Codec Tags) (p : AssetPack) : Bool :=
  decide ((writeFiles cm ct p).length < 2 ^ 31) &&
    (writeFiles cm ct p).all (fun e => decide (e.1.path.length < 2 ^ 31)) &&
    decide ((to_write cm ct p).length < 2 ^ 64)

/-- Propositional form of `sizeOkB`. -/
def SizeOk (cm : Codec PackMeta) (ct : Codec Tags) (p : AssetPack) : Prop :=
  sizeOkB cm ct p = true

/-! ## A concrete lawful codec used to instantiate the abstract JSON
collaborator in witnesses -/

/-- Unary encoding of a natural number, self-delimiting. -/
def encNat (n : Nat) : List Nat := List.replicate n 1 ++ [0]

/-- Decoder for `encNat`. -/
def decNat : List Nat → Option (Nat × List Nat)
  | [] => none
  | 0 :: r => some (0, r)
  | 1 :: r =>
    match decNat r with
    | some (n, r') => some (n + 1, r')
    | none => none
  | _ :: _ => none

/-- Length-prefixed byte-string encoding. -/
def encStr (s : Str) : List Nat := encNat s.length ++ s

/-- Decoder for `encStr`. -/
def decStr (l : List Nat) : Option (Str × List Nat) :=
  match decNat l with
  | some (n, r) => if n ≤ r.length then some (r.take n, r.drop n) else none
  | none => none

/-- Count-prefixed encoding of a list of strings. -/
def encStrList (l : List Str) : List Nat :=
  encNat l.length ++ (l.map encStr).flatten

/-- Decoder for `n` consecutive strings. -/
def decStrN : Nat → List Nat → Option (List Str × List Nat)
  | 0, r => some ([], r)
  | n + 1, r =>
    match decStr r with
    | some (s, r') =>
      match decStrN n r' with
      | some (ss, r'') => some (s :: ss, r'')
      | none => none
    | none => none

/-- Decoder for `encStrList`. -/
def decStrList (l : List Nat) : Option (List Str × List Nat) :=
  match decNat l with
  | some (n, r) => decStrN n r
  | none => none

/-- Count-prefixed encoding of a string-to-string-list map. -/
def encPairList (m : List (Str × List Str)) : List Nat :=
  encNat m.length ++ (m.map (fun kv => encStr kv.1 ++ encStrList kv.2)).flatten

/-- Decoder for `n` consecutive map entries. -/
def decPairN : Nat → List Nat → Option (List (Str × List Str) × List Nat)
  | 0, r => some ([], r)
  | n + 1, r =>
    match decStr r with
    | some (k, r1) =>
      match decStrList r1 with
      | some (v, r2) =>
        match decPairN n r2 with
        | some (kvs, r3) => some ((k, v) :: kvs, r3)
        | none => none
      | none => none
    | none => none

/-- Decoder for `encPairList`. -/
def decPairList (l : List Nat) : Option (List (Str × List Str) × List Nat) :=
  match decNat l with
  | some (n, r) => decPairN n r
  | none => none

/-- Encoding of the optional color-override record. -/
def encColor : Option ColorOverrides → List Nat
  | none => [0]
  | some c =>
    1 :: (if c.enabled then 1 else 0) ::
      (encNat c.min_redness ++ encNat c.min_saturation ++ encNat c.red_tolerance)

/-- Decoder for `encColor`. -/
def decColor : List Nat → Option (Option ColorOverrides × List Nat)
  | 0 :: r => some (none, r)
  | 1 :: 0 :: r =>
    match decNat r with
    | some (x, r1) =>
      match decNat r1 with
      | some (y, r2) =>
        match decNat r2 with
        | some (z, r3) => some (some ⟨false, x, y, z⟩, r3)
        | none => none
      | none => none
    | none => none
  | 1 :: 1 :: r =>
    match decNat r with
    | some (x, r1) =>
      match decNat r1 with
      | some (y, r2) =>
        match decNat r2 with
        | some (z, r3) => some (some ⟨true, x, y, z⟩, r3)
        | none => none
      | none => none
    | none => none
  | _ => none

/-- A concrete injective encoding of `PackMeta` standing in for its JSON
serialization in witnesses. -/
def encMeta (m : PackMeta) : List Nat :=
  encStr m.name ++ encStr m.id ++ encStr m.version ++ encStr m.author ++
    encColor m.custom_color_overrides

/-- Decoder for `encMeta`; like `serde_json::from_slice` it rejects
trailing bytes. -/
def decMeta (l : List Nat) : Option PackMeta :=
  match decStr l with
  | some (name, r1) =>
    match decStr r1 with
    | some (id, r2) =>
      match decStr r2 with
      | some (version, r3) =>
        match decStr r3 with
        | some (author, r4) =>
          match decColor r4 with
          | some (cc, r5) => if r5 = [] then some ⟨name, id, version, author, cc⟩ else none
          | none => none
        | none => none
      | none => none
    | none => none
  | none => none

/-- A concrete injective encoding of `Tags` standing in for its JSON
serialization in witnesses. -/
def encTags (t : Tags) : List Nat := encPairList t.tags ++ encPairList t.sets

/-- Decoder for `encTags`. -/
def decTags (l : List Nat) : Option Tags :=
  match decPairList l with
  | some (tg, r1) =>
    match decPairList r1 with
    | some (st, r2) => if r2 = [] then some ⟨tg, st⟩ else none
    | none => none
  | none => none

/-- The concrete `PackMeta` codec used in witnesses. -/
def metaCodecW : Codec PackMeta := ⟨encMeta, decMeta⟩

/-- The concrete `Tags` codec used in witnesses. -/
def tagsCodecW : Codec Tags := ⟨encTags, decTags⟩

/-- The payload slice belonging to each directory entry when the payload
block is consumed sequentially in the given entry order. -/
def attachPayloads : List FileMetaData → List Nat → List (FileMetaData × List Nat)
  | [], _ => []
  | m :: t, s => (m, s.take m.size) :: attachPayloads t (s.drop m.size)

/-- Whether an entry is routed to `object_files` (the branch actually
taken: not the metadata document, not the tags file, object prefix). -/
def objBranch (m : FileMetaData) : Bool :=
  !is_root_json_file m.path && !is_tags_file m.path && is_objects_file m.path

/-- Whether an entry is routed to `other_files` (the fall-through branch:
none of the special paths applies). -/
def othBranch (m : FileMetaData) : Bool :=
  !is_root_json_file m.path && !is_tags_file m.path &&
    !is_objects_file m.path && !is_pack_file m.path

/-! ## Sample data for instantiating the theorems -/

/-- A small pack: one object file `a`, a tag `t` over files `a`, `b` and a
set `s` over tags `t`, `u`. -/
def samplePack1 : AssetPack :=
  ⟨⟨1, 0, 0, 0⟩, ⟨[], [120], [], [], none⟩,
    ⟨[([116], [[97], [98]])], [([115], [[116], [117]])]⟩,
    [([97], [0])], []⟩

/-- A well-formed header and an empty directory: the archive decodes but
holds no pack-metadata document. -/
def noMetaStream : List Nat :=
  magicBytes ++ writeI32Int 1 ++ writeI32Int 2 ++ writeI32Int 3 ++
    writeI32Int 4 ++ List.replicate 64 0 ++ writeI32Nat 0

/-- The metadata value carried by the handcrafted sample streams. -/
def sampleMeta : PackMeta := ⟨[], [120], [], [], none⟩

/-- `textures/objects/a.png`. -/
def objPathA : Str := objectsPfx ++ [97, 46, 112, 110, 103]

/-- The stored (namespace-qualified) form of `objPathA` for pack id `x`:
`res://packs/x/textures/objects/a.png`. -/
def storedObjPathA : Str := resPfx ++ (packsPfx ++ ([120] ++ 47 :: objPathA))

/-- `hi.png`: a path classified as an ordinary (`other`) file. -/
def othPathA : Str := [104, 105, 46, 112, 110, 103]

/-- A handcrafted archive with duplicate directory entries in both maps:
metadata at offset 50, the object path at offsets 200 and 100 (in that
directory order) and the ordinary path at offsets 400 and 300 (in that
directory order), payloads laid out in ascending-offset order. -/
def fiveFileStream : List Nat :=
  magicBytes ++ writeI32Int 1 ++ writeI32Int 0 ++ writeI32Int 0 ++
    writeI32Int 0 ++ List.replicate 64 0 ++ writeI32Nat 5 ++
    (writeI32Nat 6 ++ [109, 46, 106, 115, 111, 110] ++ writeI64Nat 50 ++
      writeI64Nat (encMeta sampleMeta).length ++ List.replicate 16 0) ++
    (writeI32Nat storedObjPathA.length ++ storedObjPathA ++ writeI64Nat 200 ++
      writeI64Nat 1 ++ List.replicate 16 0) ++
    (writeI32Nat storedObjPathA.length ++ storedObjPathA ++ writeI64Nat 100 ++
      writeI64Nat 2 ++ List.replicate 16 0) ++
    (writeI32Nat othPathA.length ++ othPathA ++ writeI64Nat 400 ++
      writeI64Nat 1 ++ List.replicate 16 0) ++
    (writeI32Nat othPathA.length ++ othPathA ++ writeI64Nat 300 ++
      writeI64Nat 2 ++ List.replicate 16 0) ++
    encMeta sampleMeta ++ [7, 8] ++ [9] ++ [10, 11] ++ [12]

/-- The directory decoded from `fiveFileStream`, in directory order. -/
def dup2Entries : List FileMetaData :=
  [⟨[109, 46, 106, 115, 111, 110], 50, (encMeta sampleMeta).length,
      List.replicate 16 0⟩,
    ⟨objPathA, 200, 1, List.replicate 16 0⟩,
    ⟨objPathA, 100, 2, List.replicate 16 0⟩,
    ⟨othPathA, 400, 1, List.replicate 16 0⟩,
    ⟨othPathA, 300, 2, List.replicate 16 0⟩]

/-- The payload block of `fiveFileStream`. -/
def dup2Rest : List Nat :=
  encMeta sampleMeta ++ [7, 8] ++ [9] ++ [10, 11] ++ [12]

/-- The pack decoded from `fiveFileStream`: in each map the duplicate
path keeps only the payload of its larger-offset entry. -/
def dup2Pack : AssetPack :=
  ⟨⟨1, 0, 0, 0⟩, sampleMeta, Tags.new, [(objPathA, [9])], [(othPathA, [12])]⟩

/-- A handcrafted archive: a root `m.json` metadata entry (offset 100)
and one object-texture entry (offset 200), payloads in offset order. -/
def twoFileStream : List Nat :=
  magicBytes ++ writeI32Int 1 ++ writeI32Int 0 ++ writeI32Int 0 ++
    writeI32Int 0 ++ List.replicate 64 0 ++ writeI32Nat 2 ++
    (writeI32Nat 6 ++ [109, 46, 106, 115, 111, 110] ++ writeI64Nat 100 ++
      writeI64Nat (encMeta sampleMeta).length ++ List.replicate 16 0) ++
    (writeI32Nat storedObjPathA.length ++ storedObjPathA ++ writeI64Nat 200 ++
      writeI64Nat 1 ++ List.replicate 16 0) ++
    encMeta sampleMeta ++ [7]

/-- A section-3-valid pack used to instantiate the round-trip theorem:
id `x`, one object file `textures/objects/a.png`, one other file `hi`. -/
def wPack : AssetPack :=
  ⟨⟨1, 0, 0, 0⟩, ⟨[], [120], [], [], none⟩, Tags.new,
    [(objPathA, [9])], [([104, 105], [7])]⟩

/-- A section-3-valid pack whose id is the literal segment `packs`: the
round-trip counterexample (the repeated `packs/` stripping misfiles every
in-namespace path on the way back in). -/
def cePack : AssetPack :=
  ⟨⟨1, 0, 0, 0⟩, ⟨[], packsSeg, [], [], none⟩, Tags.new,
    [(objPathA, [9])], []⟩

/-! ## Byte-level and UTF-8 lemmas -/

theorem natToBytesLE_length (k n : Nat) : (natToBytesLE k n).length = k := by
  induction k generalizing n with
  | zero => rfl
  | succ k ih => simp [natToBytesLE, ih]

theorem bytesToNatLE_natToBytesLE (k n : Nat) (h : n < 256 ^ k) :
    bytesToNatLE (natToBytesLE k n) = n := by
  induction k generalizing n with
  | zero =>
    simp [natToBytesLE, bytesToNatLE]
    omega
  | succ k ih =>
    have hdiv : n / 256 < 256 ^ k := by
      rw [Nat.div_lt_iff_lt_mul (by omega)]
      calc n < 256 ^ (k + 1) := h
      _ = 256 ^ k * 256 := by ring
    simp [natToBytesLE, bytesToNatLE, ih _ hdiv]
    omega

theorem readBytes_append (l r : List Nat) :
    readBytes l.length (l ++ r) = .ok (l, r) := by
  simp [readBytes]

theorem readBytes_of_take (n : Nat) (s : List Nat) (h : n ≤ s.length) :
    readBytes n s = .ok (s.take n, s.drop n) := by
  simp [readBytes, h]

theorem readI32_writeI32Nat (n : Nat) (r : List Nat) (h : n < 2 ^ 31) :
    readI32 (writeI32Nat n ++ r) = .ok ((n : Int), r) := by
  have hlen : (writeI32Nat n).length = 4 := natToBytesLE_length 4 _
  have hrb : readBytes 4 (writeI32Nat n ++ r) = .ok (writeI32Nat n, r) := by
    rw [← hlen]; exact readBytes_append _ _
  have hval : bytesToNatLE (writeI32Nat n) = n := by
    rw [writeI32Nat, Nat.mod_eq_of_lt (show n < 2 ^ 32 by omega)]
    exact bytesToNatLE_natToBytesLE 4 n (by omega)
  rw [readI32, hrb]
  dsimp only
  rw [hval, if_pos h]

theorem readI32_writeI32Int (v : Int) (r : List Nat)
    (hlo : -(2 ^ 31) ≤ v) (hhi : v < 2 ^ 31) :
    readI32 (writeI32Int v ++ r) = .ok (v, r) := by
  have hlen : (writeI32Int v).length = 4 := natToBytesLE_length 4 _
  have hrb : readBytes 4 (writeI32Int v ++ r) = .ok (writeI32Int v, r) := by
    rw [← hlen]; exact readBytes_append _ _
  have hval : bytesToNatLE (writeI32Int v) = (v % (2 ^ 32 : Int)).toNat := by
    rw [writeI32Int]
    exact bytesToNatLE_natToBytesLE 4 _ (by omega)
  rw [readI32, hrb]
  dsimp only
  rw [hval]
  rcases le_or_lt 0 v with hv | hv
  · have hc : (v % (2 ^ 32 : Int)).toNat < 2 ^ 31 := by omega
    rw [if_pos hc]
    have hcast : (((v % (2 ^ 32 : Int)).toNat : Int)) = v := by omega
    rw [hcast]
  · have hc : ¬ ((v % (2 ^ 32 : Int)).toNat < 2 ^ 31) := by omega
    rw [if_neg hc]
    have hcast : (((v % (2 ^ 32 : Int)).toNat : Int)) - 2 ^ 32 = v := by omega
    rw [hcast]

theorem readI64_writeI64Nat (n : Nat) (r : List Nat) (h : n < 2 ^ 64) :
    readI64 (writeI64Nat n ++ r) = .ok
      (if n < 2 ^ 63 then (n : Int) else (n : Int) - 2 ^ 64, r) := by
  have hlen : (writeI64Nat n).length = 8 := natToBytesLE_length 8 _
  have hrb : readBytes 8 (writeI64Nat n ++ r) = .ok (writeI64Nat n, r) := by
    rw [← hlen]; exact readBytes_append _ _
  have hval : bytesToNatLE (writeI64Nat n) = n := by
    rw [writeI64Nat, Nat.mod_eq_of_lt h]
    exact bytesToNatLE_natToBytesLE 8 n (by omega)
  rw [readI64, hrb]
  dsimp only
  rw [hval]

theorem i64AsUsize_signed (n : Nat) (h : n < 2 ^ 64) :
    i64AsUsize (if n < 2 ^ 63 then (n : Int) else (n : Int) - 2 ^ 64) = n := by
  by_cases h63 : n < 2 ^ 63
  · rw [if_pos h63, i64AsUsize]; omega
  · rw [if_neg h63, i64AsUsize]; omega

theorem i32AsUsize_ofNat (n : Nat) (h : n < 2 ^ 31) :
    i32AsUsize ((n : Int)) = n := by
  rw [i32AsUsize]; omega

theorem utf8Valid_append : ∀ (a b : List Nat),
    utf8Valid a = true → utf8Valid b = true → utf8Valid (a ++ b) = true
  | [], _, _, hb => hb
  | x :: r, b, ha, hb => by
    rw [List.cons_append]
    rw [utf8Valid] at ha ⊢
    by_cases h1 : x < 128
    · rw [if_pos h1] at ha ⊢
      exact utf8Valid_append r b ha hb
    · rw [if_neg h1] at ha ⊢
      generalize hinfo : leaderInfo x = info at ha ⊢
      cases info with
      | none => simp at ha
      | some info =>
        obtain ⟨lo, hi, extra⟩ := info
        dsimp only at ha ⊢
        cases r with
        | nil => simp at ha
        | cons c1 r1 =>
          rw [List.cons_append]
          dsimp only at ha ⊢
          split at ha
          case _ hcond =>
            rw [if_pos hcond]
            rcases extra with _ | extra1
            · dsimp only at ha ⊢
              exact utf8Valid_append r1 b ha hb
            rcases extra1 with _ | extra2
            · cases r1 with
              | nil => simp at ha
              | cons c2 r2 =>
                rw [List.cons_append]
                dsimp only at ha ⊢
                rw [Bool.and_eq_true] at ha ⊢
                exact ⟨ha.1, utf8Valid_append r2 b ha.2 hb⟩
            rcases extra2 with _ | extra3
            · cases r1 with
              | nil => simp at ha
              | cons c2 r1t =>
                cases r1t with
                | nil => simp at ha
                | cons c3 r3 =>
                  rw [List.cons_append, List.cons_append]
                  dsimp only at ha ⊢
                  simp only [Bool.and_eq_true] at ha ⊢
                  exact ⟨ha.1, utf8Valid_append r3 b ha.2 hb⟩
            · simp at ha
          case _ => simp at ha
termination_by a => a.length

/-! ## Prefix, trim and split lemmas -/

theorem hasPfx_le_length (pat s : Str) (h : hasPfx pat s = true) :
    pat.length ≤ s.length := by
  induction pat generalizing s with
  | nil => simp
  | cons a as ih =>
    cases s with
    | nil => simp [hasPfx] at h
    | cons b bs =>
      simp only [hasPfx, Bool.and_eq_true, beq_iff_eq] at h
      have := ih bs h.2
      simp only [List.length_cons]
      omega

theorem hasPfx_append_self (t u : Str) : hasPfx t (t ++ u) = true := by
  induction t with
  | nil => rfl
  | cons a as ih => simp [hasPfx, ih]

theorem hasPfx_of_not_mem (pat : Str) (c : Nat) (hc : c ∈ pat) :
    ∀ (s : Str), c ∉ s → hasPfx pat s = false := by
  induction pat with
  | nil => cases hc
  | cons a as ih =>
    intro s hs
    cases s with
    | nil => rfl
    | cons b bs =>
      by_cases hab : a = b
      · have hca : c ≠ a := by
          intro hceq
          exact hs (by rw [hceq, hab]; exact List.mem_cons_self b bs)
        have hcas : c ∈ as := by
          cases List.mem_cons.mp hc with
          | inl h => exact absurd h hca
          | inr h => exact h
        have hcbs : c ∉ bs := fun h => hs (List.mem_cons_of_mem b h)
        simp [hasPfx, ih hcas bs hcbs]
      · simp [hasPfx, hab]

theorem hasPfx_seg (y : Str) (c : Nat) (hy : c ∉ y) :
    ∀ (x t : Str), c ∉ x → hasPfx (y ++ [c]) (x ++ c :: t) = true → x = y := by
  induction y with
  | nil =>
    intro x t hx h
    cases x with
    | nil => rfl
    | cons a as =>
      simp only [List.nil_append, List.cons_append, hasPfx,
        Bool.and_eq_true, beq_iff_eq, and_true] at h
      apply absurd _ hx
      rw [h]
      exact List.mem_cons_self a as
  | cons b bs ih =>
    intro x t hx h
    cases x with
    | nil =>
      simp only [List.cons_append, List.nil_append, hasPfx,
        Bool.and_eq_true, beq_iff_eq, and_true] at h
      apply absurd _ hy
      rw [← h.1]
      exact List.mem_cons_self b bs
    | cons a as =>
      simp only [List.cons_append, hasPfx, Bool.and_eq_true, beq_iff_eq] at h
      have hbbs : c ∉ bs := fun hmem => hy (List.mem_cons_of_mem b hmem)
      have haas : c ∉ as := fun hmem => hx (List.mem_cons_of_mem a hmem)
      rw [ih hbbs as t haas h.2, h.1]

theorem splitOnce_not_mem (c : Nat) (t : Str) (h : c ∉ t) :
    splitOnce c t = none := by
  induction t with
  | nil => rfl
  | cons b bs ih =>
    have hb : b ≠ c := fun hbc => h (hbc ▸ List.mem_cons_self b bs)
    have hbs : c ∉ bs := fun hmem => h (List.mem_cons_of_mem b hmem)
    simp [splitOnce, hb, ih hbs]

theorem splitOnce_at (c : Nat) (id tail : Str) (h : c ∉ id) :
    splitOnce c (id ++ c :: tail) = some (id, tail) := by
  induction id with
  | nil => simp [splitOnce]
  | cons b bs ih =>
    have hb : b ≠ c := fun hbc => h (hbc ▸ List.mem_cons_self b bs)
    have hbs : c ∉ bs := fun hmem => h (List.mem_cons_of_mem b hmem)
    simp [splitOnce, hb, ih hbs]

theorem trimFuel_nil (f : Nat) (pat : Str) : trimStartMatchesFuel f pat [] = [] := by
  induction f with
  | zero => rfl
  | succ k ih =>
    simp only [trimStartMatchesFuel]
    split
    · simpa using ih
    · rfl

theorem trimFuel_congr : ∀ (f1 : Nat) (pat s : Str) (f2 : Nat),
    s.length ≤ f1 → s.length ≤ f2 →
    trimStartMatchesFuel f1 pat s = trimStartMatchesFuel f2 pat s := by
  intro f1
  induction f1 with
  | zero =>
    intro pat s f2 h1 _
    have hs : s = [] := List.eq_nil_of_length_eq_zero (by omega)
    rw [hs, trimFuel_nil, trimFuel_nil]
  | succ k ih =>
    intro pat s f2 h1 h2
    cases f2 with
    | zero =>
      have hs : s = [] := List.eq_nil_of_length_eq_zero (by omega)
      rw [hs, trimFuel_nil, trimFuel_nil]
    | succ m =>
      simp only [trimStartMatchesFuel]
      by_cases hcond : pat ≠ [] ∧ hasPfx pat s = true
      · rw [if_pos hcond, if_pos hcond]
        have hpos : 0 < pat.length := by
          cases pat with
          | nil => exact absurd rfl hcond.1
          | cons _ _ => simp
        have hdl : (s.drop pat.length).length ≤ k := by
          have := hasPfx_le_length pat s hcond.2
          simp only [List.length_drop]
          omega
        have hdl2 : (s.drop pat.length).length ≤ m := by
          have := hasPfx_le_length pat s hcond.2
          simp only [List.length_drop]
          omega
        exact ih pat (s.drop pat.length) m hdl hdl2
      · rw [if_neg hcond, if_neg hcond]

theorem trimStartMatches_eq (pat s : Str) :
    trimStartMatches pat s =
      if pat ≠ [] ∧ hasPfx pat s = true then trimStartMatches pat (s.drop pat.length)
      else s := by
  by_cases hcond : pat ≠ [] ∧ hasPfx pat s = true
  · rw [if_pos hcond]
    have hpos : 0 < pat.length := by
      cases pat with
      | nil => exact absurd rfl hcond.1
      | cons _ _ => simp
    have hslen : 0 < s.length := lt_of_lt_of_le hpos (hasPfx_le_length pat s hcond.2)
    rw [trimStartMatches, trimStartMatches]
    cases hl : s.length with
    | zero => omega
    | succ k =>
      simp only [trimStartMatchesFuel]
      rw [if_pos hcond]
      apply trimFuel_congr
      · have := hasPfx_le_length pat s hcond.2
        simp only [List.length_drop]
        omega
      · exact le_refl _
  · rw [if_neg hcond, trimStartMatches]
    cases hl : s.length with
    | zero => rfl
    | succ k =>
      simp only [trimStartMatchesFuel]
      rw [if_neg hcond]

theorem trim_append_self (pat r : Str) (h : pat ≠ []) :
    trimStartMatches pat (pat ++ r) = trimStartMatches pat r := by
  rw [trimStartMatches_eq, if_pos ⟨h, hasPfx_append_self pat r⟩, List.drop_left]

theorem trim_no_pfx (pat s : Str) (h : hasPfx pat s = false) :
    trimStartMatches pat s = s := by
  rw [trimStartMatches_eq, if_neg]
  rintro ⟨_, h2⟩
  rw [h] at h2
  exact Bool.false_ne_true h2

/-! ## Path normalization lemmas -/

theorem trimmed_stored_path (id rest : Str) (hid : 47 ∉ id)
    (hne : id ≠ packsSeg) :
    trimStartMatches packsPfx
      (trimStartMatches resPfx (resPfx ++ (packsPfx ++ (id ++ 47 :: rest)))) =
      id ++ 47 :: rest := by
  rw [trim_append_self resPfx _ (by decide)]
  have h1 : hasPfx resPfx (packsPfx ++ (id ++ 47 :: rest)) = false := by
    simp [resPfx, packsPfx, hasPfx]
  rw [trim_no_pfx _ _ h1]
  rw [trim_append_self packsPfx _ (by decide)]
  have h2 : hasPfx packsPfx (id ++ 47 :: rest) = false := by
    cases hpx : hasPfx packsPfx (id ++ 47 :: rest) with
    | false => rfl
    | true =>
      have hshape : packsPfx = packsSeg ++ [47] := by decide
      rw [hshape] at hpx
      have := hasPfx_seg packsSeg 47 (by decide) id rest hid hpx
      exact absurd this hne
  rw [trim_no_pfx _ _ h2]

theorem normalizeSplit_stored (id rest : Str) (hid : 47 ∉ id)
    (hne : id ≠ packsSeg) :
    normalizeSplit (resPfx ++ (packsPfx ++ (id ++ 47 :: rest))) = (id, rest) := by
  simp only [normalizeSplit]
  rw [trimmed_stored_path id rest hid hne, splitOnce_at 47 id rest hid]

theorem normalizeSplit_root_json (id : Str) (hid : 47 ∉ id) :
    normalizeSplit (resPfx ++ (packsPfx ++ (id ++ dotJson))) =
      ([], id ++ dotJson) := by
  simp only [normalizeSplit]
  rw [trim_append_self resPfx _ (by decide)]
  have h1 : hasPfx resPfx (packsPfx ++ (id ++ dotJson)) = false := by
    simp [resPfx, packsPfx, hasPfx]
  rw [trim_no_pfx _ _ h1]
  rw [trim_append_self packsPfx _ (by decide)]
  have hnm : (47 : Nat) ∉ id ++ dotJson := by
    intro hmem
    cases List.mem_append.mp hmem with
    | inl h => exact hid h
    | inr h => simp [dotJson] at h
  have h2 : hasPfx packsPfx (id ++ dotJson) = false :=
    hasPfx_of_not_mem packsPfx 47 (by decide) _ hnm
  rw [trim_no_pfx _ _ h2, splitOnce_not_mem 47 _ hnm]

/-- Claim C5 (amended): a stored path `res://packs/<id>/<rest>` decodes to
`<rest>` for every slash-free pack id other than the literal segment
`packs` (for id `packs` the repeated `packs/`-stripping of
`trim_start_matches` fires twice, see the counterexample); and when the
prefix-stripped path contains no `/` at all it becomes the whole
normalized path, with an empty namespace segment. -/
theorem C5_normalization_amended :
    (∀ (id rest : Str), 47 ∉ id → id ≠ packsSeg →
      normalizePath (resPfx ++ (packsPfx ++ (id ++ 47 :: rest))) = rest) ∧
    (∀ s : Str, 47 ∉ trimStartMatches packsPfx (trimStartMatches resPfx s) →
      normalizeSplit s = ([], trimStartMatches packsPfx (trimStartMatches resPfx s))) := by
  constructor
  · intro id rest hid hne
    rw [normalizePath, normalizeSplit_stored id rest hid hne]
  · intro s hmem
    simp only [normalizeSplit]
    rw [splitOnce_not_mem 47 _ hmem]

/-- Claim C5 witness: pack id `x`, stored path `res://packs/x/a/b.png`
decodes to `a/b.png`; and `res://hi.png` decodes whole with an empty
namespace segment. -/
theorem C5_normalization_witness :
    normalizePath (resPfx ++ (packsPfx ++ ([120] ++ 47 :: [97, 47, 98, 46, 112, 110, 103]))) =
      [97, 47, 98, 46, 112, 110, 103] ∧
    normalizeSplit (resPfx ++ [104, 105, 46, 112, 110, 103]) =
      ([], trimStartMatches packsPfx
        (trimStartMatches resPfx (resPfx ++ [104, 105, 46, 112, 110, 103]))) :=
  ⟨C5_normalization_amended.1 [120] [97, 47, 98, 46, 112, 110, 103]
      (by decide) (by decide),
    C5_normalization_amended.2 (resPfx ++ [104, 105, 46, 112, 110, 103]) (by decide)⟩

/-- Claim C5 counterexample: the slash-free pack id `packs` breaks the
claim: `res://packs/packs/a/b.png` decodes to `b.png`, not `a/b.png`,
because `trim_start_matches` strips the `packs/` prefix repeatedly. -/
theorem C5_counterexample :
    (47 : Nat) ∉ packsSeg ∧
    normalizePath (resPfx ++ (packsPfx ++ (packsSeg ++ 47 :: [97, 47, 98, 46, 112, 110, 103]))) =
      [98, 46, 112, 110, 103] ∧
    ([98, 46, 112, 110, 103] : Str) ≠ [97, 47, 98, 46, 112, 110, 103] := by
  refine ⟨by decide, by decide, by decide⟩

/-! ## Lawfulness of the concrete witness codec -/

theorem decNat_encNat : ∀ (n : Nat) (r : List Nat),
    decNat (encNat n ++ r) = some (n, r)
  | 0, r => rfl
  | k + 1, r => by
    show (match decNat (encNat k ++ r) with
          | some (n, r') => some (n + 1, r')
          | none => none) = some (k + 1, r)
    rw [decNat_encNat k r]

theorem decStr_encStr (s : Str) (r : List Nat) :
    decStr (encStr s ++ r) = some (s, r) := by
  rw [decStr, encStr, List.append_assoc, decNat_encNat]
  dsimp only
  rw [if_pos (by simp : s.length ≤ (s ++ r).length)]
  rw [List.take_left, List.drop_left]

theorem decStrN_enc (l : List Str) (r : List Nat) :
    decStrN l.length ((l.map encStr).flatten ++ r) = some (l, r) := by
  induction l with
  | nil => rfl
  | cons s ss ih =>
    simp only [List.map_cons, List.flatten_cons, List.length_cons, decStrN,
      List.append_assoc]
    rw [decStr_encStr]
    dsimp only
    rw [ih]

theorem decStrList_enc (l : List Str) (r : List Nat) :
    decStrList (encStrList l ++ r) = some (l, r) := by
  rw [decStrList, encStrList, List.append_assoc, decNat_encNat]
  dsimp only
  exact decStrN_enc l r

theorem decPairN_enc (m : List (Str × List Str)) (r : List Nat) :
    decPairN m.length
      ((m.map (fun kv => encStr kv.1 ++ encStrList kv.2)).flatten ++ r) =
      some (m, r) := by
  induction m with
  | nil => rfl
  | cons kv kvs ih =>
    simp only [List.map_cons, List.flatten_cons, List.length_cons, decPairN,
      List.append_assoc]
    rw [decStr_encStr]
    dsimp only
    rw [decStrList_enc]
    dsimp only
    rw [ih]

theorem decPairList_enc (m : List (Str × List Str)) (r : List Nat) :
    decPairList (encPairList m ++ r) = some (m, r) := by
  rw [decPairList, encPairList, List.append_assoc, decNat_encNat]
  dsimp only
  exact decPairN_enc m r

theorem decColor_encColor (c : Option ColorOverrides) (r : List Nat) :
    decColor (encColor c ++ r) = some (c, r) := by
  cases c with
  | none => rfl
  | some cc =>
    obtain ⟨en, x, y, z⟩ := cc
    cases en with
    | false =>
      show decColor ((1 :: 0 :: (encNat x ++ encNat y ++ encNat z)) ++ r) =
        some (some ⟨false, x, y, z⟩, r)
      rw [List.cons_append, List.cons_append, List.append_assoc,
        List.append_assoc]
      simp only [decColor]
      rw [decNat_encNat]
      dsimp only
      rw [decNat_encNat]
      dsimp only
      rw [decNat_encNat]
    | true =>
      show decColor ((1 :: 1 :: (encNat x ++ encNat y ++ encNat z)) ++ r) =
        some (some ⟨true, x, y, z⟩, r)
      rw [List.cons_append, List.cons_append, List.append_assoc,
        List.append_assoc]
      simp only [decColor]
      rw [decNat_encNat]
      dsimp only
      rw [decNat_encNat]
      dsimp only
      rw [decNat_encNat]

/-- The witness `PackMeta` codec satisfies the JSON inversion law. -/
theorem metaCodecW_lawful : metaCodecW.lawful := by
  intro m
  obtain ⟨name, id, version, author, cc⟩ := m
  show decMeta (encMeta ⟨name, id, version, author, cc⟩) = _
  rw [decMeta, encMeta]
  simp only [List.append_assoc]
  rw [decStr_encStr]
  dsimp only
  rw [decStr_encStr]
  dsimp only
  rw [decStr_encStr]
  dsimp only
  rw [decStr_encStr]
  dsimp only
  rw [show encColor cc = encColor cc ++ [] by simp]
  rw [decColor_encColor]
  simp

/-- The witness `Tags` codec satisfies the JSON inversion law. -/
theorem tagsCodecW_lawful : tagsCodecW.lawful := by
  intro t
  obtain ⟨tg, st⟩ := t
  show decTags (encTags ⟨tg, st⟩) = _
  rw [decTags, encTags, decPairList_enc]
  dsimp only
  rw [show encPairList st = encPairList st ++ [] by simp, decPairList_enc]
  simp

/-! ## Association-list lemmas -/

theorem insertA_mem {α : Type} (m : List (Str × α)) (k : Str) (v : α)
    (k' : Str) (v' : α) (h : (k', v') ∈ insertA m k v) :
    (k' = k ∧ v' = v) ∨ (k', v') ∈ m := by
  induction m with
  | nil =>
    simp only [insertA, List.mem_singleton, Prod.mk.injEq] at h
    exact Or.inl h
  | cons kv t ih =>
    obtain ⟨k0, v0⟩ := kv
    simp only [insertA] at h
    by_cases he : k0 = k
    · rw [if_pos he] at h
      cases List.mem_cons.mp h with
      | inl h0 =>
        rw [Prod.mk.injEq] at h0
        exact Or.inl ⟨h0.1.symm ▸ he ▸ rfl, h0.2⟩
      | inr h0 => exact Or.inr (List.mem_cons_of_mem _ h0)
    · rw [if_neg he] at h
      cases List.mem_cons.mp h with
      | inl h0 => exact Or.inr (List.mem_cons.mpr (Or.inl h0))
      | inr h0 =>
        cases ih h0 with
        | inl h1 => exact Or.inl h1
        | inr h1 => exact Or.inr (List.mem_cons_of_mem _ h1)

theorem containsKey_iff {α : Type} (k : Str) (m : List (Str × α)) :
    containsKey k m = true ↔ ∃ v, (k, v) ∈ m := by
  rw [containsKey, List.any_eq_true]
  constructor
  · rintro ⟨kv, hmem, heq⟩
    rw [beq_iff_eq] at heq
    refine ⟨kv.2, ?_⟩
    rw [← heq]
    have : (kv.1, kv.2) = kv := Prod.mk.eta
    rw [this]
    exact hmem
  · rintro ⟨v, hmem⟩
    exact ⟨(k, v), hmem, by simp⟩

/-! ## Classification invariants of `from_read` -/

theorem classifyStep_cases (cm : Codec PackMeta) (ct : Codec Tags)
    (st : ReadState) (m : FileMetaData) (payload : List Nat) (st' : ReadState)
    (h : classifyStep cm ct st m payload = .ok st') :
    (is_root_json_file m.path = true ∧
      st'.object_files = st.object_files ∧ st'.other_files = st.other_files) ∨
    (is_root_json_file m.path = false ∧ is_tags_file m.path = true ∧
      st'.object_files = st.object_files ∧ st'.other_files = st.other_files) ∨
    (is_root_json_file m.path = false ∧ is_tags_file m.path = false ∧
      is_objects_file m.path = true ∧
      st'.object_files = insertA st.object_files m.path payload ∧
      st'.other_files = st.other_files) ∨
    (is_root_json_file m.path = false ∧ is_tags_file m.path = false ∧
      is_objects_file m.path = false ∧ is_pack_file m.path = true ∧
      st' = st) ∨
    (is_root_json_file m.path = false ∧ is_tags_file m.path = false ∧
      is_objects_file m.path = false ∧ is_pack_file m.path = false ∧
      st'.object_files = st.object_files ∧
      st'.other_files = insertA st.other_files m.path payload) := by
  rw [classifyStep] at h
  by_cases h1 : is_root_json_file m.path = true
  · rw [if_pos h1] at h
    cases hdec : cm.dec payload with
    | some pm =>
      rw [hdec] at h
      injection h with h'
      exact Or.inl ⟨h1, by rw [← h'], by rw [← h']⟩
    | none => rw [hdec] at h; exact absurd h (by simp)
  · rw [if_neg h1] at h
    rw [Bool.not_eq_true] at h1
    by_cases h2 : is_tags_file m.path = true
    · rw [if_pos h2] at h
      cases hdec : ct.dec payload with
      | some tg =>
        rw [hdec] at h
        injection h with h'
        exact Or.inr (Or.inl ⟨h1, h2, by rw [← h'], by rw [← h']⟩)
      | none => rw [hdec] at h; exact absurd h (by simp)
    · rw [if_neg h2] at h
      rw [Bool.not_eq_true] at h2
      by_cases h3 : is_objects_file m.path = true
      · rw [if_pos h3] at h
        injection h with h'
        exact Or.inr (Or.inr (Or.inl ⟨h1, h2, h3, by rw [← h'], by rw [← h']⟩))
      · rw [if_neg h3] at h
        rw [Bool.not_eq_true] at h3
        by_cases h4 : is_pack_file m.path = true
        · rw [if_pos h4] at h
          injection h with h'
          exact Or.inr (Or.inr (Or.inr (Or.inl ⟨h1, h2, h3, h4, h'.symm⟩)))
        · rw [if_neg h4] at h
          rw [Bool.not_eq_true] at h4
          injection h with h'
          exact Or.inr (Or.inr (Or.inr (Or.inr
            ⟨h1, h2, h3, h4, by rw [← h'], by rw [← h']⟩)))

/-- The key invariant carried through the payload loop: how every key of
the two file maps was classified. -/
def MapsInv (st : ReadState) : Prop :=
  (∀ kv ∈ st.object_files, is_root_json_file kv.1 = false ∧
    is_tags_file kv.1 = false ∧ is_objects_file kv.1 = true) ∧
  (∀ kv ∈ st.other_files, is_root_json_file kv.1 = false ∧
    is_tags_file kv.1 = false ∧ is_objects_file kv.1 = false ∧
    is_pack_file kv.1 = false)

theorem classifyFold_inv (cm : Codec PackMeta) (ct : Codec Tags) :
    ∀ (l : List FileMetaData) (s : List Nat) (st st' : ReadState),
    classifyFold cm ct l s st = .ok st' → MapsInv st → MapsInv st' := by
  intro l
  induction l with
  | nil =>
    intro s st st' h hinv
    rw [classifyFold] at h
    injection h with h'
    rw [← h']
    exact hinv
  | cons m rest ih =>
    intro s st st' h hinv
    rw [classifyFold] at h
    cases hrb : readBytes m.size s with
    | error e => rw [hrb] at h; exact absurd h (by simp)
    | ok pr =>
      obtain ⟨payload, s2⟩ := pr
      rw [hrb] at h
      dsimp only at h
      cases hcs : classifyStep cm ct st m payload with
      | error e => rw [hcs] at h; exact absurd h (by simp)
      | ok stMid =>
        rw [hcs] at h
        dsimp only at h
        refine ih s2 stMid st' h ?_
        rcases classifyStep_cases cm ct st m payload stMid hcs with
          ⟨_, ho, hh⟩ | ⟨_, _, ho, hh⟩ | ⟨hr, ht, hob, ho, hh⟩ |
          ⟨_, _, _, _, hst⟩ | ⟨hr, ht, hob, hp, ho, hh⟩
        · exact ⟨ho ▸ hinv.1, hh ▸ hinv.2⟩
        · exact ⟨ho ▸ hinv.1, hh ▸ hinv.2⟩
        · constructor
          · intro kv hkv
            rw [ho] at hkv
            obtain ⟨k', v'⟩ := kv
            cases insertA_mem st.object_files m.path payload k' v' hkv with
            | inl heq => exact heq.1 ▸ ⟨hr, ht, hob⟩
            | inr hmem => exact hinv.1 (k', v') hmem
          · exact hh ▸ hinv.2
        · exact hst ▸ hinv
        · constructor
          · exact ho ▸ hinv.1
          · intro kv hkv
            rw [hh] at hkv
            obtain ⟨k', v'⟩ := kv
            cases insertA_mem st.other_files m.path payload k' v' hkv with
            | inl heq => exact heq.1 ▸ ⟨hr, ht, hob, hp⟩
            | inr hmem => exact hinv.2 (k', v') hmem

/-- Claim C4: whenever `from_read` succeeds, the two file maps have
disjoint key sets, every `object_files` key carries the
`textures/objects/` prefix, and no key of either map is a root-level
`.json` metadata path, the normalized `pack.json` duplicate, or a
tag-index path. -/
theorem C4_classification (cm : Codec PackMeta) (ct : Codec Tags)
    (s : List Nat) (p : AssetPack) (h : from_read cm ct s = .ok p) :
    (∀ k, containsKey k p.object_files = true →
      containsKey k p.other_files = false) ∧
    (∀ kv ∈ p.object_files, is_objects_file kv.1 = true ∧
      is_root_json_file kv.1 = false ∧ kv.1 ≠ packFileName ∧
      is_tags_file kv.1 = false) ∧
    (∀ kv ∈ p.other_files, is_objects_file kv.1 = false ∧
      is_root_json_file kv.1 = false ∧ kv.1 ≠ packFileName ∧
      is_tags_file kv.1 = false) := by
  rw [from_read] at h
  cases hdir : parseDirectory s with
  | error e => rw [hdir] at h; exact absurd h (by simp)
  | ok tr =>
    obtain ⟨gv, entries, rest⟩ := tr
    rw [hdir] at h
    dsimp only at h
    cases hfold : classifyFold cm ct (insSort entries) rest ⟨[], [], none, none⟩ with
    | error e => rw [hfold] at h; exact absurd h (by simp)
    | ok st =>
      rw [hfold] at h
      dsimp only at h
      cases hmm : st.maybe_meta with
      | none => rw [hmm] at h; exact absurd h (by simp)
      | some pm =>
        rw [hmm] at h
        injection h with h'
        have hinit : MapsInv ⟨[], [], none, none⟩ := by
          constructor
          · intro kv hkv
            exact absurd hkv (List.not_mem_nil kv)
          · intro kv hkv
            exact absurd hkv (List.not_mem_nil kv)
        have hinv : MapsInv st :=
          classifyFold_inv cm ct (insSort entries) rest ⟨[], [], none, none⟩ st hfold
            hinit
        have hobj : p.object_files = st.object_files := by rw [← h']
        have hoth : p.other_files = st.other_files := by rw [← h']
        have hpackroot : is_root_json_file packFileName = true := by decide
        refine ⟨?_, ?_, ?_⟩
        · intro k hk
          rw [hobj] at hk
          rw [hoth]
          obtain ⟨v, hv⟩ := (containsKey_iff k st.object_files).mp hk
          have hkobj : is_objects_file k = true := (hinv.1 (k, v) hv).2.2
          cases hconto : containsKey k st.other_files with
          | false => rfl
          | true =>
            obtain ⟨w, hw⟩ := (containsKey_iff k st.other_files).mp hconto
            have : is_objects_file k = false := (hinv.2 (k, w) hw).2.2.1
            rw [hkobj] at this
            exact absurd this (by simp)
        · intro kv hkv
          rw [hobj] at hkv
          obtain ⟨hr, ht, hob⟩ := hinv.1 kv hkv
          refine ⟨hob, hr, ?_, ht⟩
          intro hkp
          rw [hkp, hpackroot] at hr
          exact absurd hr (by simp)
        · intro kv hkv
          rw [hoth] at hkv
          obtain ⟨hr, ht, hob, _⟩ := hinv.2 kv hkv
          refine ⟨hob, hr, ?_, ht⟩
          intro hkp
          rw [hkp, hpackroot] at hr
          exact absurd hr (by simp)

set_option maxRecDepth 8000 in
/-- Claim C4 witness: a concrete two-entry archive that decodes
successfully; its object key satisfies the classification facts. -/
theorem C4_classification_witness :
    is_objects_file objPathA = true ∧ is_root_json_file objPathA = false ∧
    objPathA ≠ packFileName ∧ is_tags_file objPathA = false :=
  (C4_classification metaCodecW tagsCodecW twoFileStream
      ⟨⟨1, 0, 0, 0⟩, sampleMeta, Tags.new, [(objPathA, [7])], []⟩
      (by rfl)).2.1 (objPathA, [7]) (by simp)

/-! ## Offset assignment in `to_write` -/

theorem entryBytes_length (m : FileMetaData) :
    (entryBytes m).length = 4 + m.path.length + 8 + 8 + 16 := by
  simp [entryBytes, writeI32Nat, writeI64Nat, natToBytesLE_length]
  omega

theorem assignOffsets_length (off : Nat) (l : List (FileMetaData × List Nat)) :
    (assignOffsets off l).length = l.length := by
  induction l generalizing off with
  | nil => rfl
  | cons e t ih =>
    obtain ⟨m, d⟩ := e
    simp [assignOffsets, ih]

theorem assignOffsets_map_payload (off : Nat)
    (l : List (FileMetaData × List Nat)) :
    (assignOffsets off l).map (fun e => e.2) = l.map (fun e => e.2) := by
  induction l generalizing off with
  | nil => rfl
  | cons e t ih =>
    obtain ⟨m, d⟩ := e
    simp [assignOffsets, ih]

theorem assignOffsets_map_size (off : Nat)
    (l : List (FileMetaData × List Nat)) :
    (assignOffsets off l).map (fun e => e.1.size) =
      l.map (fun e => e.1.size) := by
  induction l generalizing off with
  | nil => rfl
  | cons e t ih =>
    obtain ⟨m, d⟩ := e
    simp only [assignOffsets, List.map_cons, ih]

theorem assignOffsets_sizes (off : Nat) (l : List (FileMetaData × List Nat))
    (h : ∀ e ∈ l, e.1.size = e.2.length) :
    ∀ e ∈ assignOffsets off l, e.1.size = e.2.length := by
  induction l generalizing off with
  | nil => intro e he; exact absurd he (List.not_mem_nil e)
  | cons x t ih =>
    intro e he
    obtain ⟨m, d⟩ := x
    rcases List.mem_cons.mp he with h1 | h1
    · rw [h1]
      exact h (m, d) (List.mem_cons_self _ _)
    · exact ih (off + m.size) (fun e2 he2 => h e2 (List.mem_cons_of_mem _ he2)) e h1

theorem assignOffsets_map_binsize (off : Nat)
    (l : List (FileMetaData × List Nat)) :
    (assignOffsets off l).map (fun e => calculate_binary_size e.1) =
      l.map (fun e => calculate_binary_size e.1) := by
  induction l generalizing off with
  | nil => rfl
  | cons e t ih =>
    obtain ⟨m, d⟩ := e
    simp only [assignOffsets, List.map_cons, ih]
    rfl

theorem assignOffsets_getq (l : List (FileMetaData × List Nat)) :
    ∀ (off i : Nat),
    (assignOffsets off l)[i]? = (l[i]?).map
      (fun e => ({ e.1 with
        offset := off + ((l.map (fun x => x.1.size)).take i).sum }, e.2)) := by
  induction l with
  | nil => intro off i; simp [assignOffsets]
  | cons e t ih =>
    intro off i
    obtain ⟨m, d⟩ := e
    cases i with
    | zero => simp [assignOffsets]
    | succ i =>
      simp only [assignOffsets, List.getElem?_cons_succ, List.map_cons,
        List.take_succ_cons, List.sum_cons]
      rw [ih (off + m.size) i]
      cases ht : t[i]? with
      | none => simp
      | some e2 =>
        simp only [Option.map_some]
        have harith : off + m.size + ((t.map (fun x => x.1.size)).take i).sum =
            off + (m.size + ((t.map (fun x => x.1.size)).take i).sum) := by omega
        rw [harith]

theorem writeFiles_sizes (cm : Codec PackMeta) (ct : Codec Tags)
    (p : AssetPack) : ∀ e ∈ writeFiles cm ct p, e.1.size = e.2.length := by
  intro e he
  simp only [writeFiles] at he
  rcases List.mem_cons.mp he with h1 | he
  · rw [h1]; rfl
  rcases List.mem_cons.mp he with h2 | he
  · rw [h2]; rfl
  rcases List.mem_cons.mp he with h3 | he
  · rw [h3]; rfl
  rw [List.mem_map] at he
  obtain ⟨kv, _, hkv⟩ := he
  rw [← hkv]
  rfl

theorem drop_len_append {α : Type} (a b : List α) (n : Nat) :
    (a ++ b).drop (a.length + n) = b.drop n := by
  induction a with
  | nil => simp
  | cons x t ih =>
    simp only [List.cons_append, List.length_cons]
    rw [show t.length + 1 + n = (t.length + n) + 1 by omega]
    simp only [List.drop_succ_cons]
    exact ih

theorem flatten_drop_payload :
    ∀ (l : List (FileMetaData × List Nat)),
    (∀ e ∈ l, e.1.size = e.2.length) →
    ∀ (i : Nat) (e : FileMetaData × List Nat), l[i]? = some e →
    ((l.map (fun x => x.2)).flatten).drop
        (((l.map (fun x => x.1.size)).take i).sum) =
      e.2 ++ ((l.drop (i + 1)).map (fun x => x.2)).flatten := by
  intro l
  induction l with
  | nil => intro _ i e h; simp at h
  | cons x t ih =>
    intro hsz i e h
    obtain ⟨m, d⟩ := x
    cases i with
    | zero =>
      simp only [List.getElem?_cons_zero, Option.some.injEq] at h
      rw [← h]
      simp
    | succ i =>
      have hd : m.size = d.length := hsz (m, d) (List.mem_cons_self _ _)
      simp only [List.getElem?_cons_succ] at h
      simp only [List.map_cons, List.take_succ_cons, List.sum_cons,
        List.flatten_cons, List.drop_succ_cons]
      rw [hd, drop_len_append]
      exact ih (fun e2 he2 => hsz e2 (List.mem_cons_of_mem _ he2)) i e h

theorem to_write_base_length (cm : Codec PackMeta) (ct : Codec Tags)
    (p : AssetPack) :
    (magicBytes ++ writeI32Int p.godot_version.version ++
      writeI32Int p.godot_version.major ++ writeI32Int p.godot_version.minor ++
      writeI32Int p.godot_version.revision ++ List.replicate 64 0 ++
      writeI32Nat (writeFilesAssigned cm ct p).length ++
      ((writeFilesAssigned cm ct p).map
        (fun (e : FileMetaData × List Nat) => entryBytes e.1)).flatten).length =
      calculate_files_block_starting_offset (writeFiles cm ct p) := by
  simp only [List.length_append, magicBytes, writeI32Int, writeI32Nat,
    natToBytesLE_length, List.length_replicate, List.length_flatten,
    List.map_map]
  have hmap : ((writeFilesAssigned cm ct p).map
      (fun (e : FileMetaData × List Nat) => (entryBytes e.1).length)) =
      ((writeFilesAssigned cm ct p).map
        (fun (e : FileMetaData × List Nat) => calculate_binary_size e.1)) := by
    apply List.map_congr_left
    intro e _
    rw [entryBytes_length]
    rfl
  have hcomp : (List.length ∘ fun (e : FileMetaData × List Nat) => entryBytes e.1) =
      (fun (e : FileMetaData × List Nat) => (entryBytes e.1).length) := rfl
  rw [hcomp, hmap, writeFilesAssigned, assignOffsets_map_binsize,
    calculate_files_block_starting_offset]
  simp [GodotVersion.size_in_bytes, List.length_cons]

theorem to_write_drop_base (cm : Codec PackMeta) (ct : Codec Tags)
    (p : AssetPack) (n : Nat) :
    (to_write cm ct p).drop
        (calculate_files_block_starting_offset (writeFiles cm ct p) + n) =
      (((writeFilesAssigned cm ct p).map (fun e => e.2)).flatten).drop n := by
  rw [show to_write cm ct p =
      (magicBytes ++ writeI32Int p.godot_version.version ++
        writeI32Int p.godot_version.major ++ writeI32Int p.godot_version.minor ++
        writeI32Int p.godot_version.revision ++ List.replicate 64 0 ++
        writeI32Nat (writeFilesAssigned cm ct p).length ++
        ((writeFilesAssigned cm ct p).map
          (fun (e : FileMetaData × List Nat) => entryBytes e.1)).flatten) ++
      ((writeFilesAssigned cm ct p).map (fun e => e.2)).flatten from rfl]
  rw [← to_write_base_length cm ct p]
  exact drop_len_append _ _ n

/-- Claim C6: in `to_write`'s directory, the first entry's offset is
`88 + Σ (4 + pathLen + 8 + 8 + 16)`, each following offset is the previous
offset plus the previous size, and each payload actually occupies the
bytes of the output stream starting at its entry's recorded offset. -/
theorem C6_offsets (cm : Codec PackMeta) (ct : Codec Tags) (p : AssetPack) :
    (∀ (e : FileMetaData × List Nat), (writeFilesAssigned cm ct p)[0]? = some e →
      e.1.offset = 88 +
        ((writeFiles cm ct p).map
          (fun x => 4 + x.1.path.length + 8 + 8 + 16)).sum) ∧
    (∀ (i : Nat) (e1 e2 : FileMetaData × List Nat),
      (writeFilesAssigned cm ct p)[i]? = some e1 →
      (writeFilesAssigned cm ct p)[i + 1]? = some e2 →
      e2.1.offset = e1.1.offset + e1.1.size) ∧
    (∀ (i : Nat) (e : FileMetaData × List Nat),
      (writeFilesAssigned cm ct p)[i]? = some e →
      ((to_write cm ct p).drop e.1.offset).take e.1.size = e.2) := by
  have hgetq := assignOffsets_getq (writeFiles cm ct p)
    (calculate_files_block_starting_offset (writeFiles cm ct p))
  have hbase : calculate_files_block_starting_offset (writeFiles cm ct p) =
      88 + ((writeFiles cm ct p).map
        (fun x => 4 + x.1.path.length + 8 + 8 + 16)).sum := by
    rw [calculate_files_block_starting_offset]
    have : (writeFiles cm ct p).map (fun e => calculate_binary_size e.1) =
        (writeFiles cm ct p).map (fun x => 4 + x.1.path.length + 8 + 8 + 16) := by
      apply List.map_congr_left
      intro e _
      rfl
    rw [this, GodotVersion.size_in_bytes]
  refine ⟨?_, ?_, ?_⟩
  · intro e he
    rw [writeFilesAssigned, hgetq 0] at he
    cases h0 : (writeFiles cm ct p)[0]? with
    | none => rw [h0] at he; simp at he
    | some e0 =>
      rw [h0] at he
      simp only [Option.map_some', Option.some.injEq] at he
      rw [← he]
      simp [hbase]
  · intro i e1 e2 h1 h2
    rw [writeFilesAssigned, hgetq i] at h1
    rw [writeFilesAssigned, hgetq (i + 1)] at h2
    cases ha : (writeFiles cm ct p)[i]? with
    | none => rw [ha] at h1; simp at h1
    | some a =>
      cases hb : (writeFiles cm ct p)[i + 1]? with
      | none => rw [hb] at h2; simp at h2
      | some b =>
        rw [ha] at h1
        rw [hb] at h2
        simp only [Option.map_some', Option.some.injEq] at h1 h2
        rw [← h1, ← h2]
        have htake : (((writeFiles cm ct p).map (fun x => x.1.size)).take (i + 1)).sum =
            (((writeFiles cm ct p).map (fun x => x.1.size)).take i).sum + a.1.size := by
          rw [List.take_succ]
          have hmapi : ((writeFiles cm ct p).map (fun x => x.1.size))[i]? =
              some a.1.size := by
            rw [List.getElem?_map, ha]
            rfl
          rw [hmapi]
          simp
        dsimp only
        rw [htake]
        omega
  · intro i e he
    rw [writeFilesAssigned, hgetq i] at he
    cases ha : (writeFiles cm ct p)[i]? with
    | none => rw [ha] at he; simp at he
    | some a =>
      rw [ha] at he
      simp only [Option.map_some', Option.some.injEq] at he
      rw [← he]
      dsimp only
      rw [to_write_drop_base]
      have hsz : ∀ e2 ∈ writeFilesAssigned cm ct p, e2.1.size = e2.2.length := by
        rw [writeFilesAssigned]
        exact assignOffsets_sizes _ _ (writeFiles_sizes cm ct p)
      have hgeti : (writeFilesAssigned cm ct p)[i]? =
          some ({ a.1 with offset := (calculate_files_block_starting_offset
              (writeFiles cm ct p) +
              (((writeFiles cm ct p).map (fun x => x.1.size)).take i).sum) }, a.2) := by
        rw [writeFilesAssigned, hgetq i, ha]
        rfl
      have hdrop := flatten_drop_payload (writeFilesAssigned cm ct p) hsz i _ hgeti
      have hsizes : (writeFilesAssigned cm ct p).map (fun x => x.1.size) =
          (writeFiles cm ct p).map (fun x => x.1.size) := by
        rw [writeFilesAssigned]
        exact assignOffsets_map_size _ _
      rw [hsizes] at hdrop
      rw [hdrop]
      have hlen : a.1.size = a.2.length :=
        writeFiles_sizes cm ct p a (List.getElem?_mem ha)
      rw [hlen, List.take_left]

set_option maxRecDepth 8000 in
/-- Claim C6 witness: for a concrete pack, the first assigned offset is
`88` plus the directory size, and the fourth payload sits at its recorded
offset in the output stream. -/
theorem C6_offsets_witness :
    ((writeFilesAssigned metaCodecW tagsCodecW samplePack1)[0]?.getD
        (FileMetaData.new [] 0, [])).1.offset =
      88 + ((writeFiles metaCodecW tagsCodecW samplePack1).map
        (fun x => 4 + x.1.path.length + 8 + 8 + 16)).sum ∧
    ((to_write metaCodecW tagsCodecW samplePack1).drop
        ((writeFilesAssigned metaCodecW tagsCodecW samplePack1)[3]?.getD
          (FileMetaData.new [] 0, [])).1.offset).take
        ((writeFilesAssigned metaCodecW tagsCodecW samplePack1)[3]?.getD
          (FileMetaData.new [] 0, [])).1.size =
      ((writeFilesAssigned metaCodecW tagsCodecW samplePack1)[3]?.getD
        (FileMetaData.new [] 0, [])).2 :=
  ⟨(C6_offsets metaCodecW tagsCodecW samplePack1).1 _ (by rfl),
    (C6_offsets metaCodecW tagsCodecW samplePack1).2.2 3 _ (by rfl)⟩

/-! ## Duplicate directory entries: the last one in offset order wins -/

theorem readBytes_ok_eq (n : Nat) (s a b : List Nat)
    (h : readBytes n s = .ok (a, b)) : a = s.take n ∧ b = s.drop n := by
  rw [readBytes] at h
  by_cases hle : n ≤ s.length
  · rw [if_pos hle] at h
    injection h with h'
    rw [Prod.mk.injEq] at h'
    exact ⟨h'.1.symm, h'.2.symm⟩
  · rw [if_neg hle] at h
    exact absurd h (by simp)

theorem lookupA_insertA_self {α : Type} (m : List (Str × α)) (k : Str) (v : α) :
    lookupA k (insertA m k v) = some v := by
  induction m with
  | nil => simp [insertA, lookupA]
  | cons kv t ih =>
    obtain ⟨k0, v0⟩ := kv
    by_cases he : k0 = k
    · simp [insertA, he, lookupA]
    · simp [insertA, he, lookupA, ih]

theorem lookupA_insertA_other {α : Type} (m : List (Str × α)) (k k' : Str)
    (v : α) (hne : k' ≠ k) :
    lookupA k (insertA m k' v) = lookupA k m := by
  induction m with
  | nil => simp [insertA, lookupA, hne]
  | cons kv t ih =>
    obtain ⟨k0, v0⟩ := kv
    by_cases he : k0 = k'
    · rw [he]
      simp only [insertA, if_pos rfl]
      by_cases hek : k' = k
      · exact absurd hek hne
      · simp [lookupA, hek]
    · simp only [insertA, if_neg he]
      by_cases hek : k0 = k
      · simp [lookupA, hek]
      · simp [lookupA, hek, ih]

theorem containsKey_insertA_other {α : Type} (m : List (Str × α))
    (k k' : Str) (v : α) (hne : k ≠ k') :
    containsKey k (insertA m k' v) = containsKey k m := by
  induction m with
  | nil => simp [insertA, containsKey, Ne.symm hne]
  | cons kv t ih =>
    obtain ⟨k0, v0⟩ := kv
    by_cases he : k0 = k'
    · simp [insertA, he, containsKey]
    · simp only [insertA, if_neg he, containsKey, List.any_cons] at ih ⊢
      rw [ih]

theorem keysNodupB_insertA {α : Type} (m : List (Str × α)) (k : Str) (v : α)
    (h : keysNodupB m = true) : keysNodupB (insertA m k v) = true := by
  induction m with
  | nil => simp [insertA, keysNodupB, containsKey]
  | cons kv t ih =>
    obtain ⟨k0, v0⟩ := kv
    simp only [keysNodupB, Bool.and_eq_true, Bool.not_eq_true'] at h
    by_cases he : k0 = k
    · simp only [insertA, if_pos he, keysNodupB, Bool.and_eq_true,
        Bool.not_eq_true']
      exact h
    · simp only [insertA, if_neg he, keysNodupB, Bool.and_eq_true,
        Bool.not_eq_true']
      refine ⟨?_, ih h.2⟩
      rw [containsKey_insertA_other t k0 k v he]
      exact h.1

theorem classifyFold_nodup (cm : Codec PackMeta) (ct : Codec Tags) :
    ∀ (l : List FileMetaData) (s : List Nat) (st st' : ReadState),
    classifyFold cm ct l s st = .ok st' →
    keysNodupB st.object_files = true → keysNodupB st'.object_files = true := by
  intro l
  induction l with
  | nil =>
    intro s st st' h hnd
    rw [classifyFold] at h
    injection h with h'
    rw [← h']
    exact hnd
  | cons m rest ih =>
    intro s st st' h hnd
    rw [classifyFold] at h
    cases hrb : readBytes m.size s with
    | error e => rw [hrb] at h; exact absurd h (by simp)
    | ok pr =>
      obtain ⟨payload, s2⟩ := pr
      rw [hrb] at h
      dsimp only at h
      cases hcs : classifyStep cm ct st m payload with
      | error e => rw [hcs] at h; exact absurd h (by simp)
      | ok stMid =>
        rw [hcs] at h
        dsimp only at h
        refine ih s2 stMid st' h ?_
        rcases classifyStep_cases cm ct st m payload stMid hcs with
          ⟨_, ho, _⟩ | ⟨_, _, ho, _⟩ | ⟨_, _, _, ho, _⟩ |
          ⟨_, _, _, _, hst⟩ | ⟨_, _, _, _, ho, _⟩
        · exact ho ▸ hnd
        · exact ho ▸ hnd
        · rw [ho]
          exact keysNodupB_insertA st.object_files m.path payload hnd
        · exact hst ▸ hnd
        · exact ho ▸ hnd

theorem classifyFold_lookup (cm : Codec PackMeta) (ct : Codec Tags) :
    ∀ (l : List FileMetaData) (s : List Nat) (st st' : ReadState),
    classifyFold cm ct l s st = .ok st' → ∀ k,
    lookupA k st'.object_files =
      match ((attachPayloads l s).filter
          (fun e => objBranch e.1 && e.1.path == k)).getLast? with
      | some e => some e.2
      | none => lookupA k st.object_files := by
  intro l
  induction l with
  | nil =>
    intro s st st' h k
    rw [classifyFold] at h
    injection h with h'
    rw [← h']
    rfl
  | cons m rest ih =>
    intro s st st' h k
    rw [classifyFold] at h
    cases hrb : readBytes m.size s with
    | error e => rw [hrb] at h; exact absurd h (by simp)
    | ok pr =>
      obtain ⟨payload, s2⟩ := pr
      rw [hrb] at h
      dsimp only at h
      obtain ⟨hpl, hs2⟩ := readBytes_ok_eq m.size s payload s2 hrb
      cases hcs : classifyStep cm ct st m payload with
      | error e => rw [hcs] at h; exact absurd h (by simp)
      | ok stMid =>
        rw [hcs] at h
        dsimp only at h
        have ihk := ih s2 stMid st' h k
        have hattach : attachPayloads (m :: rest) s =
            (m, s.take m.size) :: attachPayloads rest (s.drop m.size) := rfl
        rw [hattach, ← hpl, ← hs2]
        by_cases hm : (objBranch m && (m.path == k)) = true
        · have hfpos : List.filter (fun e => objBranch e.1 && e.1.path == k)
              ((m, payload) :: attachPayloads rest s2) =
              (m, payload) :: List.filter (fun e => objBranch e.1 && e.1.path == k)
                (attachPayloads rest s2) := List.filter_cons_of_pos (by exact hm)
          rw [hfpos]
          rw [Bool.and_eq_true, beq_iff_eq] at hm
          obtain ⟨hbr, hpath⟩ := hm
          rw [objBranch, Bool.and_eq_true, Bool.and_eq_true,
            Bool.not_eq_true', Bool.not_eq_true'] at hbr
          have hmid : stMid.object_files = insertA st.object_files m.path payload := by
            rcases classifyStep_cases cm ct st m payload stMid hcs with
              ⟨hr, _, _⟩ | ⟨_, ht, _, _⟩ | ⟨_, _, _, ho, _⟩ |
              ⟨_, _, hob, _, _⟩ | ⟨_, _, hob, _, _, _⟩
            · rw [hbr.1.1] at hr; exact absurd hr (by simp)
            · rw [hbr.1.2] at ht; exact absurd ht (by simp)
            · exact ho
            · rw [hbr.2] at hob; exact absurd hob (by simp)
            · rw [hbr.2] at hob; exact absurd hob (by simp)
          have hlook : lookupA k stMid.object_files = some payload := by
            rw [hmid, ← hpath]
            exact lookupA_insertA_self st.object_files m.path payload
          cases hfl : (attachPayloads rest s2).filter
              (fun e => objBranch e.1 && e.1.path == k) with
          | nil =>
            rw [hfl] at ihk
            dsimp only [List.getLast?] at ihk ⊢
            rw [ihk, hlook, hpl]
            simp
          | cons e0 t0 =>
            rw [hfl] at ihk
            rw [List.getLast?_cons_cons]
            have hne : e0 :: t0 ≠ [] := by simp
            rw [List.getLast?_eq_getLast _ hne] at ihk ⊢
            exact ihk
        · have hfneg : List.filter (fun e => objBranch e.1 && e.1.path == k)
              ((m, payload) :: attachPayloads rest s2) =
              List.filter (fun e => objBranch e.1 && e.1.path == k)
                (attachPayloads rest s2) := List.filter_cons_of_neg (by exact hm)
          rw [hfneg]
          have hmid : lookupA k stMid.object_files = lookupA k st.object_files := by
            rcases classifyStep_cases cm ct st m payload stMid hcs with
              ⟨_, ho, _⟩ | ⟨_, _, ho, _⟩ | ⟨hr, ht, hob, ho, _⟩ |
              ⟨_, _, _, _, hst⟩ | ⟨_, _, _, _, ho, _⟩
            · rw [ho]
            · rw [ho]
            · have hbr : objBranch m = true := by
                rw [objBranch, hr, ht, hob]
                rfl
              have hpk : (m.path == k) = false := by
                cases hpk : m.path == k with
                | false => rfl
                | true => rw [Bool.and_eq_true] at hm; simp [hbr, hpk] at hm
              rw [beq_eq_false_iff_ne] at hpk
              rw [ho]
              exact lookupA_insertA_other st.object_files k m.path payload hpk
            · rw [hst]
            · rw [ho]
          rw [ihk]
          cases hfl : (attachPayloads rest s2).filter
              (fun e => objBranch e.1 && e.1.path == k) with
          | nil =>
            dsimp only [List.getLast?]
            rw [hmid]
          | cons e0 t0 =>
            have hne : e0 :: t0 ≠ [] := by simp
            rw [List.getLast?_eq_getLast _ hne]

theorem classifyFold_nodup_oth (cm : Codec PackMeta) (ct : Codec Tags) :
    ∀ (l : List FileMetaData) (s : List Nat) (st st' : ReadState),
    classifyFold cm ct l s st = .ok st' →
    keysNodupB st.other_files = true → keysNodupB st'.other_files = true := by
  intro l
  induction l with
  | nil =>
    intro s st st' h hnd
    rw [classifyFold] at h
    injection h with h'
    rw [← h']
    exact hnd
  | cons m rest ih =>
    intro s st st' h hnd
    rw [classifyFold] at h
    cases hrb : readBytes m.size s with
    | error e => rw [hrb] at h; exact absurd h (by simp)
    | ok pr =>
      obtain ⟨payload, s2⟩ := pr
      rw [hrb] at h
      dsimp only at h
      cases hcs : classifyStep cm ct st m payload with
      | error e => rw [hcs] at h; exact absurd h (by simp)
      | ok stMid =>
        rw [hcs] at h
        dsimp only at h
        refine ih s2 stMid st' h ?_
        rcases classifyStep_cases cm ct st m payload stMid hcs with
          ⟨_, _, ho⟩ | ⟨_, _, _, ho⟩ | ⟨_, _, _, _, ho⟩ |
          ⟨_, _, _, _, hst⟩ | ⟨_, _, _, _, _, ho⟩
        · exact ho ▸ hnd
        · exact ho ▸ hnd
        · exact ho ▸ hnd
        · exact hst ▸ hnd
        · rw [ho]
          exact keysNodupB_insertA st.other_files m.path payload hnd

theorem classifyFold_lookup_oth (cm : Codec PackMeta) (ct : Codec Tags) :
    ∀ (l : List FileMetaData) (s : List Nat) (st st' : ReadState),
    classifyFold cm ct l s st = .ok st' → ∀ k,
    lookupA k st'.other_files =
      match ((attachPayloads l s).filter
          (fun e => othBranch e.1 && e.1.path == k)).getLast? with
      | some e => some e.2
      | none => lookupA k st.other_files := by
  intro l
  induction l with
  | nil =>
    intro s st st' h k
    rw [classifyFold] at h
    injection h with h'
    rw [← h']
    rfl
  | cons m rest ih =>
    intro s st st' h k
    rw [classifyFold] at h
    cases hrb : readBytes m.size s with
    | error e => rw [hrb] at h; exact absurd h (by simp)
    | ok pr =>
      obtain ⟨payload, s2⟩ := pr
      rw [hrb] at h
      dsimp only at h
      obtain ⟨hpl, hs2⟩ := readBytes_ok_eq m.size s payload s2 hrb
      cases hcs : classifyStep cm ct st m payload with
      | error e => rw [hcs] at h; exact absurd h (by simp)
      | ok stMid =>
        rw [hcs] at h
        dsimp only at h
        have ihk := ih s2 stMid st' h k
        have hattach : attachPayloads (m :: rest) s =
            (m, s.take m.size) :: attachPayloads rest (s.drop m.size) := rfl
        rw [hattach, ← hpl, ← hs2]
        by_cases hm : (othBranch m && (m.path == k)) = true
        · have hfpos : List.filter (fun e => othBranch e.1 && e.1.path == k)
              ((m, payload) :: attachPayloads rest s2) =
              (m, payload) :: List.filter (fun e => othBranch e.1 && e.1.path == k)
                (attachPayloads rest s2) := List.filter_cons_of_pos (by exact hm)
          rw [hfpos]
          rw [Bool.and_eq_true, beq_iff_eq] at hm
          obtain ⟨hbr, hpath⟩ := hm
          rw [othBranch, Bool.and_eq_true, Bool.and_eq_true, Bool.and_eq_true,
            Bool.not_eq_true', Bool.not_eq_true', Bool.not_eq_true',
            Bool.not_eq_true'] at hbr
          have hmid : stMid.other_files = insertA st.other_files m.path payload := by
            rcases classifyStep_cases cm ct st m payload stMid hcs with
              ⟨hr, _, _⟩ | ⟨_, ht, _, _⟩ | ⟨_, _, hob, _, _⟩ |
              ⟨_, _, _, hpk, _⟩ | ⟨_, _, _, _, _, ho⟩
            · rw [hbr.1.1.1] at hr; exact absurd hr (by simp)
            · rw [hbr.1.1.2] at ht; exact absurd ht (by simp)
            · rw [hbr.1.2] at hob; exact absurd hob (by simp)
            · rw [hbr.2] at hpk; exact absurd hpk (by simp)
            · exact ho
          have hlook : lookupA k stMid.other_files = some payload := by
            rw [hmid, ← hpath]
            exact lookupA_insertA_self st.other_files m.path payload
          cases hfl : (attachPayloads rest s2).filter
              (fun e => othBranch e.1 && e.1.path == k) with
          | nil =>
            rw [hfl] at ihk
            dsimp only [List.getLast?] at ihk ⊢
            rw [ihk, hlook, hpl]
            simp
          | cons e0 t0 =>
            rw [hfl] at ihk
            rw [List.getLast?_cons_cons]
            have hne : e0 :: t0 ≠ [] := by simp
            rw [List.getLast?_eq_getLast _ hne] at ihk ⊢
            exact ihk
        · have hfneg : List.filter (fun e => othBranch e.1 && e.1.path == k)
              ((m, payload) :: attachPayloads rest s2) =
              List.filter (fun e => othBranch e.1 && e.1.path == k)
                (attachPayloads rest s2) := List.filter_cons_of_neg (by exact hm)
          rw [hfneg]
          have hmid : lookupA k stMid.other_files = lookupA k st.other_files := by
            rcases classifyStep_cases cm ct st m payload stMid hcs with
              ⟨_, _, ho⟩ | ⟨_, _, _, ho⟩ | ⟨_, _, _, _, ho⟩ |
              ⟨_, _, _, _, hst⟩ | ⟨hr, ht, hob, hpk, _, ho⟩
            · rw [ho]
            · rw [ho]
            · rw [ho]
            · rw [hst]
            · have hbr : othBranch m = true := by
                rw [othBranch, hr, ht, hob, hpk]
                rfl
              have hpe : (m.path == k) = false := by
                cases hpe : m.path == k with
                | false => rfl
                | true => rw [Bool.and_eq_true] at hm; simp [hbr, hpe] at hm
              rw [beq_eq_false_iff_ne] at hpe
              rw [ho]
              exact lookupA_insertA_other st.other_files k m.path payload hpe
          rw [ihk]
          cases hfl : (attachPayloads rest s2).filter
              (fun e => othBranch e.1 && e.1.path == k) with
          | nil =>
            dsimp only [List.getLast?]
            rw [hmid]
          | cons e0 t0 =>
            have hne : e0 :: t0 ≠ [] := by simp
            rw [List.getLast?_eq_getLast _ hne]

/-- Claim C10: when `from_read` succeeds, each of the two file maps holds
exactly one payload per path (no duplicate keys), and for each path it is
the payload of the last entry of the offset-sorted directory that was
classified into that map (`insSort` is stable, so equal offsets keep
directory order); earlier duplicates — whether routed to `object_files`
or to `other_files` — were read from the stream and discarded. -/
theorem C10_duplicate_last_wins (cm : Codec PackMeta) (ct : Codec Tags)
    (s : List Nat) (p : AssetPack) (gv : GodotVersion)
    (entries : List FileMetaData) (rest : List Nat)
    (h : from_read cm ct s = .ok p)
    (hdir : parseDirectory s = .ok (gv, entries, rest)) :
    keysNodupB p.object_files = true ∧
    keysNodupB p.other_files = true ∧
    (∀ k, lookupA k p.object_files =
      match ((attachPayloads (insSort entries) rest).filter
          (fun e => objBranch e.1 && e.1.path == k)).getLast? with
      | some e => some e.2
      | none => none) ∧
    (∀ k, lookupA k p.other_files =
      match ((attachPayloads (insSort entries) rest).filter
          (fun e => othBranch e.1 && e.1.path == k)).getLast? with
      | some e => some e.2
      | none => none) := by
  rw [from_read, hdir] at h
  dsimp only at h
  cases hfold : classifyFold cm ct (insSort entries) rest ⟨[], [], none, none⟩ with
  | error e => rw [hfold] at h; exact absurd h (by simp)
  | ok st =>
    rw [hfold] at h
    dsimp only at h
    cases hmm : st.maybe_meta with
    | none => rw [hmm] at h; exact absurd h (by simp)
    | some pm =>
      rw [hmm] at h
      injection h with h'
      have hobj : p.object_files = st.object_files := by rw [← h']
      have hoth : p.other_files = st.other_files := by rw [← h']
      refine ⟨?_, ?_, ?_, ?_⟩
      · rw [hobj]
        exact classifyFold_nodup cm ct (insSort entries) rest ⟨[], [], none, none⟩
          st hfold rfl
      · rw [hoth]
        exact classifyFold_nodup_oth cm ct (insSort entries) rest
          ⟨[], [], none, none⟩ st hfold rfl
      · intro k
        rw [hobj]
        have := classifyFold_lookup cm ct (insSort entries) rest
          ⟨[], [], none, none⟩ st hfold k
        rw [this]
        rfl
      · intro k
        rw [hoth]
        have := classifyFold_lookup_oth cm ct (insSort entries) rest
          ⟨[], [], none, none⟩ st hfold k
        rw [this]
        rfl

set_option maxRecDepth 8000 in
/-- Claim C10 witness: an archive holding two directory entries for the
object path (offsets 200 and 100, directory positions 2 and 3) and two
for the ordinary path `hi.png` (offsets 400 and 300, directory positions
4 and 5): `object_files` keeps only the payload `[9]` of its offset-200
entry, `other_files` keeps only the payload `[12]` of its offset-400
entry, and neither map has a duplicate key. -/
theorem C10_duplicate_last_wins_witness :
    keysNodupB dup2Pack.object_files = true ∧
    keysNodupB dup2Pack.other_files = true ∧
    (lookupA objPathA dup2Pack.object_files =
      match ((attachPayloads (insSort dup2Entries) dup2Rest).filter
          (fun e => objBranch e.1 && e.1.path == objPathA)).getLast? with
      | some e => some e.2
      | none => none) ∧
    (lookupA othPathA dup2Pack.other_files =
      match ((attachPayloads (insSort dup2Entries) dup2Rest).filter
          (fun e => othBranch e.1 && e.1.path == othPathA)).getLast? with
      | some e => some e.2
      | none => none) := by
  have h10 := C10_duplicate_last_wins metaCodecW tagsCodecW fiveFileStream
    dup2Pack ⟨1, 0, 0, 0⟩ dup2Entries dup2Rest (by rfl) (by rfl)
  exact ⟨h10.1, h10.2.1, h10.2.2.1 objPathA, h10.2.2.2 othPathA⟩

/-! ## Missing metadata document -/

/-- Claim C2 (the code aborts instead): on a stream whose directory
decodes but contains no pack-metadata document, `from_read` does not
return a classified decode error — it reaches `maybe_meta.unwrap()` and
panics, modelled by the `missingMetaPanic` outcome. -/
theorem C2_missing_meta_panics :
    from_read metaCodecW tagsCodecW noMetaStream = .error .missingMetaPanic := by
  rfl

/-! ## Magic-marker tolerance -/

/-- Claim C7: the magic marker never affects the result.  Two streams of
equal length that agree from byte 4 on produce identical `from_read`
results: the marker is only compared for a warning, and decoding resumes
at offset 4 in both runs. -/
theorem C7_magic_nonfatal (cm : Codec PackMeta) (ct : Codec Tags)
    (s₁ s₂ : List Nat) (hlen : s₁.length = s₂.length)
    (htail : s₁.drop 4 = s₂.drop 4) :
    from_read cm ct s₁ = from_read cm ct s₂ := by
  have hdir : parseDirectory s₁ = parseDirectory s₂ := by
    rw [parseDirectory, parseDirectory, readBytes, readBytes]
    by_cases h4 : 4 ≤ s₁.length
    · rw [if_pos h4, if_pos (hlen ▸ h4)]
      dsimp only
      rw [htail]
    · rw [if_neg h4, if_neg (hlen ▸ h4)]
  rw [from_read, from_read, hdir]

/-- Claim C7 witness: two streams differing only in their first four
bytes. -/
theorem C7_magic_nonfatal_witness :
    from_read metaCodecW tagsCodecW [0, 1, 2, 3, 9] =
      from_read metaCodecW tagsCodecW [71, 68, 80, 67, 9] :=
  C7_magic_nonfatal metaCodecW tagsCodecW [0, 1, 2, 3, 9] [71, 68, 80, 67, 9]
    (by decide) (by decide)

/-! ## The tag-graph cleaner -/

theorem clean_tags_tags_mem (p : AssetPack) (t : Str) (fs : List Str)
    (h : (t, fs) ∈ (clean_tags p).tags.tags) :
    ∃ fs0, (t, fs0) ∈ p.tags.tags ∧
      fs = fs0.filter (fun f => containsKey f p.object_files) ∧
      fs ≠ [] := by
  simp only [clean_tags] at h
  rw [List.mem_filter] at h
  obtain ⟨h1, h2⟩ := h
  rw [List.mem_map] at h1
  obtain ⟨tv, htv, heq⟩ := h1
  rw [Prod.mk.injEq] at heq
  obtain ⟨he1, he2⟩ := heq
  refine ⟨tv.2, ?_, he2.symm, ?_⟩
  · have hpair : (t, tv.2) = tv := by rw [← he1]
    rw [hpair]
    exact htv
  · intro hfs
    rw [hfs] at h2
    simp at h2

theorem clean_tags_sets_mem (p : AssetPack) (s : Str) (ts : List Str)
    (h : (s, ts) ∈ (clean_tags p).tags.sets) :
    ∃ ts0, (s, ts0) ∈ p.tags.sets ∧
      ts = ts0.filter (fun t => containsKey t (clean_tags p).tags.tags) ∧
      ts ≠ [] := by
  simp only [clean_tags] at h ⊢
  rw [List.mem_filter] at h
  obtain ⟨h1, h2⟩ := h
  rw [List.mem_map] at h1
  obtain ⟨sv, hsv, heq⟩ := h1
  rw [Prod.mk.injEq] at heq
  obtain ⟨he1, he2⟩ := heq
  refine ⟨sv.2, ?_, he2.symm, ?_⟩
  · have hpair : (s, sv.2) = sv := by rw [← he1]
    rw [hpair]
    exact hsv
  · intro hts
    rw [hts] at h2
    simp at h2

/-- Claim C3: after `clean_tags`, every file path in a surviving tag is a
key of `object_files`, every tag name in a surviving set is a key of the
pruned tag map (so a tag emptied in phase 2 counts as nonexistent in
phase 3), and no tag or set maps to an empty collection. -/
theorem C3_clean_invariant (p : AssetPack) :
    (∀ t fs, (t, fs) ∈ (clean_tags p).tags.tags →
      (∀ f ∈ fs, containsKey f p.object_files = true) ∧ fs ≠ []) ∧
    (∀ s ts, (s, ts) ∈ (clean_tags p).tags.sets →
      (∀ t ∈ ts, containsKey t (clean_tags p).tags.tags = true) ∧ ts ≠ []) := by
  constructor
  · intro t fs h
    obtain ⟨fs0, _, hfilt, hne⟩ := clean_tags_tags_mem p t fs h
    refine ⟨?_, hne⟩
    intro f hf
    rw [hfilt] at hf
    have h' := List.of_mem_filter hf
    exact h'
  · intro s ts h
    obtain ⟨ts0, _, hfilt, hne⟩ := clean_tags_sets_mem p s ts h
    refine ⟨?_, hne⟩
    intro t ht
    rw [hfilt] at ht
    have h' := List.of_mem_filter ht
    exact h'

/-- Claim C3 witness. -/
theorem C3_clean_invariant_witness :
    (∀ f ∈ [[97]], containsKey f samplePack1.object_files = true) ∧
    ([[97]] : List Str) ≠ [] :=
  (C3_clean_invariant samplePack1).1 [116] [[97]] (by decide)

/-- Claim C9: `clean_tags` changes at most the `tags` field, and every
surviving tag or set entry is a sub-collection of the original entry. -/
theorem C9_clean_frame (p : AssetPack) :
    (clean_tags p).godot_version = p.godot_version ∧
    (clean_tags p).meta = p.meta ∧
    (clean_tags p).object_files = p.object_files ∧
    (clean_tags p).other_files = p.other_files ∧
    (∀ t fs, (t, fs) ∈ (clean_tags p).tags.tags →
      ∃ fs0, (t, fs0) ∈ p.tags.tags ∧ fs ⊆ fs0) ∧
    (∀ s ts, (s, ts) ∈ (clean_tags p).tags.sets →
      ∃ ts0, (s, ts0) ∈ p.tags.sets ∧ ts ⊆ ts0) := by
  refine ⟨rfl, rfl, rfl, rfl, ?_, ?_⟩
  · intro t fs h
    obtain ⟨fs0, hmem, hfilt, _⟩ := clean_tags_tags_mem p t fs h
    exact ⟨fs0, hmem, hfilt ▸ (List.filter_sublist _).subset⟩
  · intro s ts h
    obtain ⟨ts0, hmem, hfilt, _⟩ := clean_tags_sets_mem p s ts h
    exact ⟨ts0, hmem, hfilt ▸ (List.filter_sublist _).subset⟩

/-- Claim C9 witness. -/
theorem C9_clean_frame_witness :
    (clean_tags samplePack1).object_files = samplePack1.object_files ∧
    ∃ fs0, ([116], fs0) ∈ samplePack1.tags.tags ∧ [[97]] ⊆ fs0 :=
  ⟨(C9_clean_frame samplePack1).2.2.1,
    (C9_clean_frame samplePack1).2.2.2.2.1 [116] [[97]] (by decide)⟩

theorem cleanPass_idem (l : List (Str × List Str)) (pr : Str → Bool) :
    (((l.map (fun tv => (tv.1, tv.2.filter pr))).filter
        (fun tv => !tv.2.isEmpty)).map (fun tv => (tv.1, tv.2.filter pr))).filter
          (fun tv => !tv.2.isEmpty) =
      (l.map (fun tv => (tv.1, tv.2.filter pr))).filter (fun tv => !tv.2.isEmpty) := by
  have hmap : ∀ tv ∈ (l.map (fun tv => (tv.1, tv.2.filter pr))).filter
      (fun tv => !tv.2.isEmpty),
      (fun tv => (tv.1, tv.2.filter pr)) tv = id tv := by
    intro tv htv
    rw [List.mem_filter] at htv
    obtain ⟨h1, _⟩ := htv
    rw [List.mem_map] at h1
    obtain ⟨tv0, _, heq⟩ := h1
    have hfs : tv.2.filter pr = tv.2 := by
      rw [List.filter_eq_self]
      intro f hf
      rw [← heq] at hf
      have h' := List.of_mem_filter hf
      exact h'
    show (tv.1, tv.2.filter pr) = tv
    rw [hfs]
  have hall : ∀ tv ∈ (l.map (fun tv => (tv.1, tv.2.filter pr))).filter
      (fun tv => !tv.2.isEmpty),
      (!tv.2.isEmpty) = true := by
    intro tv htv
    have h' := List.of_mem_filter htv
    exact h'
  rw [List.map_congr_left hmap, List.map_id, List.filter_eq_self.mpr hall]

/-- Claim C8: `clean_tags` is idempotent. -/
theorem C8_clean_idempotent (p : AssetPack) :
    clean_tags (clean_tags p) = clean_tags p := by
  obtain ⟨gv, meta, ⟨tagsL, setsL⟩, obj, oth⟩ := p
  simp only [clean_tags, AssetPack.mk.injEq, Tags.mk.injEq, true_and, and_true]
  refine ⟨?_, ?_⟩
  · exact cleanPass_idem tagsL _
  · rw [cleanPass_idem tagsL (fun f => containsKey f obj)]
    exact cleanPass_idem setsL _

/-! ## Round-trip of `to_write` and `from_read` (claim C1) -/

theorem splitAll_no_sep (c : Nat) (s : Str) (h : c ∉ s) : splitAll c s = [s] := by
  induction s with
  | nil => rfl
  | cons b r ih =>
    have hb : b ≠ c := fun hbc => h (hbc ▸ List.mem_cons_self b r)
    have hr : c ∉ r := fun hm => h (List.mem_cons_of_mem b hm)
    rw [splitAll, if_neg hb, ih hr]

theorem splitAll_sep_left (c : Nat) (x r : Str) (hx : c ∉ x) :
    splitAll c (x ++ c :: r) = x :: splitAll c r := by
  induction x with
  | nil => simp [splitAll]
  | cons b bs ih =>
    have hb : b ≠ c := fun hbc => hx (hbc ▸ List.mem_cons_self b bs)
    have hbs : c ∉ bs := fun hm => hx (List.mem_cons_of_mem b hm)
    rw [List.cons_append, splitAll, if_neg hb, ih hbs]

theorem rustComponents_single (s : Str) (h47 : (47 : Nat) ∉ s) (hne : s ≠ [])
    (hnd : s ≠ [46]) (hdd : s ≠ [46, 46]) :
    rustComponents s = [PComp.normal s] := by
  have hsp : splitAll 47 s = [s] := splitAll_no_sep 47 s h47
  simp only [rustComponents, if_neg hne, hsp, List.head?_cons]
  have h1 : ¬ ((some s : Option Str) = some []) := by simp [hne]
  have h2 : ¬ ((some s : Option Str) = some [46]) := by simp [hnd]
  rw [if_neg h1, if_neg h2]
  have hp : (decide (s ≠ []) && decide (s ≠ [46])) = true := by
    simp [hne, hnd]
  have hfil : List.filter (fun x => decide (x ≠ []) && decide (x ≠ [46])) [s] = [s] :=
    by rw [List.filter_cons_of_pos (by exact hp), List.filter_nil]
  rw [hfil, List.map_cons, List.map_nil, toComp, if_neg hdd]

theorem parentIsEmpty_single (s : Str) (h47 : (47 : Nat) ∉ s) (hne : s ≠ [])
    (hnd : s ≠ [46]) (hdd : s ≠ [46, 46]) :
    parentIsEmpty s = true := by
  rw [parentIsEmpty, rustComponents_single s h47 hne hnd hdd]

theorem rustFileName_single (s : Str) (h47 : (47 : Nat) ∉ s) (hne : s ≠ [])
    (hnd : s ≠ [46]) (hdd : s ≠ [46, 46]) :
    rustFileName s = some s := by
  rw [rustFileName, rustComponents_single s h47 hne hnd hdd]
  rfl

theorem takeWhile_json_tail (t : Str) :
    List.takeWhile (fun b => decide (b ≠ 46))
      ([110, 111, 115, 106, 46] ++ t) = [110, 111, 115, 106] := by
  simp [List.takeWhile_cons]

theorem rustExtension_id_json (id : Str) (h47 : (47 : Nat) ∉ id)
    (hne : id ≠ []) :
    rustExtension (id ++ dotJson) = some jsonExt := by
  have hlen : (id ++ dotJson).length = id.length + 5 := by
    simp [dotJson]
  have h47x : (47 : Nat) ∉ id ++ dotJson := by
    intro hm
    rcases List.mem_append.mp hm with h | h
    · exact h47 h
    · simp [dotJson] at h
  have hnex : id ++ dotJson ≠ [] := by
    intro h
    have := congrArg List.length h
    rw [hlen] at this
    simp at this
  have hndx : id ++ dotJson ≠ [46] := by
    intro h
    have := congrArg List.length h
    rw [hlen] at this
    simp at this
  have hddx : id ++ dotJson ≠ [46, 46] := by
    intro h
    have := congrArg List.length h
    rw [hlen] at this
    simp at this
  rw [rustExtension, rustFileName_single _ h47x hnex hndx hddx]
  have hrev : (id ++ dotJson).reverse = [110, 111, 115, 106, 46] ++ id.reverse := by
    rw [List.reverse_append]
    rfl
  simp only [hrev, takeWhile_json_tail]
  rw [if_neg (by rw [hlen]; simp)]
  rw [if_neg (by
    rw [hlen]
    have hpos : 0 < id.length := List.length_pos.mpr hne
    simp only [List.length_cons, List.length_nil]
    omega)]
  rfl

theorem is_root_json_of_id (id : Str) (h47 : (47 : Nat) ∉ id) (hne : id ≠ []) :
    is_root_json_file (id ++ dotJson) = true := by
  have hlen : (id ++ dotJson).length = id.length + 5 := by
    simp [dotJson]
  have h47x : (47 : Nat) ∉ id ++ dotJson := by
    intro hm
    rcases List.mem_append.mp hm with h | h
    · exact h47 h
    · simp [dotJson] at h
  have hnex : id ++ dotJson ≠ [] := by
    intro h
    have := congrArg List.length h
    rw [hlen] at this
    simp at this
  have hndx : id ++ dotJson ≠ [46] := by
    intro h
    have := congrArg List.length h
    rw [hlen] at this
    simp at this
  have hddx : id ++ dotJson ≠ [46, 46] := by
    intro h
    have := congrArg List.length h
    rw [hlen] at this
    simp at this
  rw [is_root_json_file, rustExtension_id_json id h47 hne,
    parentIsEmpty_single _ h47x hnex hndx hddx]
  rfl

theorem hasPfx_exists (pat s : Str) (h : hasPfx pat s = true) :
    ∃ t, s = pat ++ t := by
  induction pat generalizing s with
  | nil => exact ⟨s, rfl⟩
  | cons a as ih =>
    cases s with
    | nil => simp [hasPfx] at h
    | cons b bs =>
      simp only [hasPfx, Bool.and_eq_true, beq_iff_eq] at h
      obtain ⟨t, ht⟩ := ih bs h.2
      exact ⟨t, by rw [h.1, ht]; rfl⟩

theorem obj_pfx_components (t : Str) :
    ∃ c1 c2 rest, rustComponents (objectsPfx ++ t) =
      PComp.normal c1 :: PComp.normal c2 :: rest := by
  have hshape : objectsPfx ++ t =
      [116, 101, 120, 116, 117, 114, 101, 115] ++ 47 ::
        ([111, 98, 106, 101, 99, 116, 115] ++ 47 :: t) := rfl
  have hsp : splitAll 47 (objectsPfx ++ t) =
      [116, 101, 120, 116, 117, 114, 101, 115] ::
        [111, 98, 106, 101, 99, 116, 115] :: splitAll 47 t := by
    rw [hshape, splitAll_sep_left 47 _ _ (by decide),
      splitAll_sep_left 47 _ _ (by decide)]
  have hne : objectsPfx ++ t ≠ [] := by
    intro h
    have := congrArg List.length h
    simp [objectsPfx] at this
  simp only [rustComponents, if_neg hne, hsp, List.head?_cons]
  rw [if_neg (by simp), if_neg (by simp)]
  rw [List.filter_cons_of_pos (by decide), List.filter_cons_of_pos (by decide)]
  exact ⟨_, _, _, rfl⟩

theorem obj_not_root (k : Str) (h : hasPfx objectsPfx k = true) :
    is_root_json_file k = false := by
  obtain ⟨t, ht⟩ := hasPfx_exists objectsPfx k h
  obtain ⟨c1, c2, rest, hc⟩ := obj_pfx_components t
  rw [ht, is_root_json_file, parentIsEmpty, hc]
  rw [Bool.and_false]

theorem readEntry_entryBytes (m : FileMetaData) (r : List Nat)
    (h1 : m.path.length < 2 ^ 31) (h2 : utf8Valid m.path = true)
    (h3 : m.offset < 2 ^ 64) (h4 : m.size < 2 ^ 64) :
    readEntry (entryBytes m ++ r) =
      .ok (⟨normalizePath m.path, m.offset, m.size, List.replicate 16 0⟩, r) := by
  have hform : entryBytes m ++ r =
      writeI32Nat m.path.length ++ (m.path ++ (writeI64Nat m.offset ++
        (writeI64Nat m.size ++ (List.replicate 16 0 ++ r)))) := by
    simp [entryBytes, List.append_assoc]
  rw [readEntry, hform, readI32_writeI32Nat _ _ h1]
  dsimp only
  rw [i32AsUsize_ofNat _ h1, readBytes_append]
  dsimp only
  rw [if_pos h2, readI64_writeI64Nat _ _ h3]
  dsimp only
  rw [readI64_writeI64Nat _ _ h4]
  dsimp only
  have h16 : readBytes 16 (List.replicate 16 (0 : Nat) ++ r) =
      .ok (List.replicate 16 0, r) := by
    have := readBytes_append (List.replicate 16 (0 : Nat)) r
    rwa [List.length_replicate] at this
  rw [h16]
  dsimp only
  rw [i64AsUsize_signed _ h3, i64AsUsize_signed _ h4]

theorem readEntries_entryBytes :
    ∀ (l : List FileMetaData) (r : List Nat),
    (∀ m ∈ l, m.path.length < 2 ^ 31 ∧ utf8Valid m.path = true ∧
      m.offset < 2 ^ 64 ∧ m.size < 2 ^ 64) →
    readEntries l.length ((l.map entryBytes).flatten ++ r) =
      .ok (l.map (fun m =>
        ⟨normalizePath m.path, m.offset, m.size, List.replicate 16 0⟩), r) := by
  intro l
  induction l with
  | nil => intro r _; rfl
  | cons m t ih =>
    intro r hf
    obtain ⟨hm1, hm2, hm3, hm4⟩ := hf m (List.mem_cons_self m t)
    simp only [List.map_cons, List.flatten_cons, List.length_cons,
      List.append_assoc]
    rw [readEntries, readEntry_entryBytes m _ hm1 hm2 hm3 hm4]
    dsimp only
    rw [ih _ (fun m2 hmem => hf m2 (List.mem_cons_of_mem m hmem))]

theorem mem_assignOffsets :
    ∀ (l : List (FileMetaData × List Nat)) (off : Nat)
      (e : FileMetaData × List Nat), e ∈ assignOffsets off l →
    ∃ e0 ∈ l, e.1.path = e0.1.path ∧ e.1.size = e0.1.size ∧ e.2 = e0.2 := by
  intro l
  induction l with
  | nil => intro off e he; simp [assignOffsets] at he
  | cons x t ih =>
    intro off e he
    obtain ⟨m, d⟩ := x
    rw [assignOffsets] at he
    rcases List.mem_cons.mp he with hh | hh
    · exact ⟨(m, d), List.mem_cons_self _ _, by rw [hh], by rw [hh], by rw [hh]⟩
    · obtain ⟨e0, he0, hp⟩ := ih (off + m.size) e hh
      exact ⟨e0, List.mem_cons_of_mem _ he0, hp⟩

theorem assignOffsets_offset_bound :
    ∀ (l : List (FileMetaData × List Nat)) (off : Nat)
      (e : FileMetaData × List Nat), e ∈ assignOffsets off l →
    e.1.offset + e.1.size ≤ off + (l.map (fun x => x.1.size)).sum := by
  intro l
  induction l with
  | nil => intro off e he; simp [assignOffsets] at he
  | cons x t ih =>
    intro off e he
    obtain ⟨m, d⟩ := x
    rw [assignOffsets] at he
    simp only [List.map_cons, List.sum_cons]
    rcases List.mem_cons.mp he with hh | hh
    · rw [hh]
      show off + m.size ≤ off + (m.size + ((t.map (fun x => x.1.size)).sum))
      omega
    · have := ih (off + m.size) e hh
      omega

theorem to_write_length (cm : Codec PackMeta) (ct : Codec Tags) (p : AssetPack) :
    (to_write cm ct p).length =
      calculate_files_block_starting_offset (writeFiles cm ct p) +
        ((writeFiles cm ct p).map (fun e => e.1.size)).sum := by
  have hsplit : to_write cm ct p =
      (magicBytes ++ writeI32Int p.godot_version.version ++
        writeI32Int p.godot_version.major ++ writeI32Int p.godot_version.minor ++
        writeI32Int p.godot_version.revision ++ List.replicate 64 0 ++
        writeI32Nat (writeFilesAssigned cm ct p).length ++
        ((writeFilesAssigned cm ct p).map
          (fun (e : FileMetaData × List Nat) => entryBytes e.1)).flatten) ++
      ((writeFilesAssigned cm ct p).map (fun e => e.2)).flatten := rfl
  rw [hsplit, List.length_append, to_write_base_length]
  congr 1
  rw [writeFilesAssigned, assignOffsets_map_payload, List.length_flatten,
    List.map_map]
  have hcongr : ((writeFiles cm ct p).map
      (List.length ∘ fun (e : FileMetaData × List Nat) => e.2)) =
      ((writeFiles cm ct p).map (fun e => e.1.size)) := by
    apply List.map_congr_left
    intro e he
    show e.2.length = e.1.size
    exact (writeFiles_sizes cm ct p e he).symm
  rw [hcongr]

theorem writeFiles_paths_utf8 (cm : Codec PackMeta) (ct : Codec Tags)
    (p : AssetPack) (hid : utf8Valid p.meta.id = true)
    (hobj : ∀ kv ∈ p.object_files, utf8Valid kv.1 = true)
    (hoth : ∀ kv ∈ p.other_files, utf8Valid kv.1 = true) :
    ∀ e ∈ writeFiles cm ct p, utf8Valid e.1.path = true := by
  have hpfx : utf8Valid (packPathPfx p.meta.id) = true := by
    rw [packPathPfx]
    exact utf8Valid_append (resPfx ++ packsPfx) p.meta.id (by decide) hid
  intro e he
  simp only [writeFiles] at he
  rcases List.mem_cons.mp he with h1 | he
  · rw [h1]
    show utf8Valid (packPathPfx p.meta.id ++ dotJson) = true
    exact utf8Valid_append _ dotJson hpfx (by decide)
  rcases List.mem_cons.mp he with h2 | he
  · rw [h2]
    show utf8Valid (packPathPfx p.meta.id ++ 47 :: packFileName) = true
    exact utf8Valid_append _ ([47] ++ packFileName) hpfx
      (utf8Valid_append [47] packFileName (by decide) (by decide))
  rcases List.mem_cons.mp he with h3 | he
  · rw [h3]
    show utf8Valid (packPathPfx p.meta.id ++ 47 :: tagsFileName) = true
    exact utf8Valid_append _ ([47] ++ tagsFileName) hpfx
      (utf8Valid_append [47] tagsFileName (by decide) (by decide))
  · rw [List.mem_map] at he
    obtain ⟨kv, hkv, hkveq⟩ := he
    rw [← hkveq]
    show utf8Valid (packPathPfx p.meta.id ++ 47 :: kv.1) = true
    have hk : utf8Valid kv.1 = true := by
      rcases List.mem_append.mp hkv with h | h
      · exact hobj kv h
      · exact hoth kv h
    exact utf8Valid_append _ ([47] ++ kv.1) hpfx
      (utf8Valid_append [47] kv.1 (by decide) hk)

theorem writeFilesAssigned_entry_facts (cm : Codec PackMeta) (ct : Codec Tags)
    (p : AssetPack) (hv : ValidPack p) (hs : SizeOk cm ct p) :
    ∀ e ∈ writeFilesAssigned cm ct p,
      e.1.path.length < 2 ^ 31 ∧ utf8Valid e.1.path = true ∧
      e.1.offset < 2 ^ 64 ∧ e.1.size < 2 ^ 64 := by
  simp only [SizeOk, sizeOkB, Bool.and_eq_true, decide_eq_true_eq,
    List.all_eq_true] at hs
  obtain ⟨⟨hcount, hplen⟩, hstream⟩ := hs
  simp only [ValidPack, validPackB, Bool.and_eq_true, decide_eq_true_eq,
    List.all_eq_true] at hv
  obtain ⟨⟨⟨⟨⟨⟨⟨⟨⟨⟨hidne, hid47⟩, hidu⟩, _⟩, _⟩, _⟩, _⟩, _⟩, _⟩, hao⟩, hat⟩ := hv
  have hutf := writeFiles_paths_utf8 cm ct p hidu
    (fun kv hkv => by
      have hx := hao kv hkv
      simp only [validKeyObj, Bool.and_eq_true] at hx
      exact hx.2)
    (fun kv hkv => by
      have hx := hat kv hkv
      simp only [validKeyOther, Bool.and_eq_true] at hx
      exact hx.2)
  intro e he
  obtain ⟨e0, he0, hpath, hsize, _⟩ := mem_assignOffsets _ _ e he
  have hb := assignOffsets_offset_bound (writeFiles cm ct p)
    (calculate_files_block_starting_offset (writeFiles cm ct p)) e he
  rw [← to_write_length cm ct p] at hb
  refine ⟨?_, ?_, ?_, ?_⟩
  · rw [hpath]; exact hplen e0 he0
  · rw [hpath]; exact hutf e0 he0
  · omega
  · omega

theorem parseDirectory_to_write (cm : Codec PackMeta) (ct : Codec Tags)
    (p : AssetPack) (hv : ValidPack p) (hs : SizeOk cm ct p) :
    parseDirectory (to_write cm ct p) =
      .ok (p.godot_version,
        (writeFilesAssigned cm ct p).map
          (fun e => ⟨normalizePath e.1.path, e.1.offset, e.1.size,
            List.replicate 16 0⟩),
        ((writeFilesAssigned cm ct p).map (fun e => e.2)).flatten) := by
  have hfacts := writeFilesAssigned_entry_facts cm ct p hv hs
  simp only [ValidPack, validPackB, Bool.and_eq_true, decide_eq_true_eq] at hv
  obtain ⟨⟨⟨⟨⟨⟨⟨⟨⟨⟨hidne, hid47⟩, hidu⟩, hr1⟩, hr2⟩, hr3⟩, hr4⟩, hndo⟩, hndt⟩,
    hao⟩, hat⟩ := hv
  simp only [i32Range, Bool.and_eq_true, decide_eq_true_eq] at hr1 hr2 hr3 hr4
  simp only [SizeOk, sizeOkB, Bool.and_eq_true, decide_eq_true_eq,
    List.all_eq_true] at hs
  obtain ⟨⟨hcount, _⟩, _⟩ := hs
  have hcountA : (writeFilesAssigned cm ct p).length < 2 ^ 31 := by
    rw [writeFilesAssigned, assignOffsets_length]
    exact hcount
  have hform : to_write cm ct p =
      magicBytes ++ (writeI32Int p.godot_version.version ++
        (writeI32Int p.godot_version.major ++ (writeI32Int p.godot_version.minor ++
        (writeI32Int p.godot_version.revision ++ (List.replicate 64 0 ++
        (writeI32Nat (writeFilesAssigned cm ct p).length ++
        (((writeFilesAssigned cm ct p).map
          (fun (e : FileMetaData × List Nat) => entryBytes e.1)).flatten ++
          ((writeFilesAssigned cm ct p).map (fun e => e.2)).flatten))))))) := by
    show (magicBytes ++ writeI32Int p.godot_version.version ++
        writeI32Int p.godot_version.major ++ writeI32Int p.godot_version.minor ++
        writeI32Int p.godot_version.revision ++ List.replicate 64 0 ++
        writeI32Nat (writeFilesAssigned cm ct p).length ++
        ((writeFilesAssigned cm ct p).map
          (fun (e : FileMetaData × List Nat) => entryBytes e.1)).flatten ++
        ((writeFilesAssigned cm ct p).map (fun e => e.2)).flatten) = _
    simp only [List.append_assoc]
  have hm4 : ∀ (r : List Nat), readBytes 4 (magicBytes ++ r) =
      .ok (magicBytes, r) := by
    intro r
    have := readBytes_append magicBytes r
    simpa using this
  rw [parseDirectory, hform, hm4]
  dsimp only
  rw [readI32_writeI32Int _ _ hr1.1 hr1.2]
  dsimp only
  rw [readI32_writeI32Int _ _ hr2.1 hr2.2]
  dsimp only
  rw [readI32_writeI32Int _ _ hr3.1 hr3.2]
  dsimp only
  rw [readI32_writeI32Int _ _ hr4.1 hr4.2]
  dsimp only
  have hm64 : ∀ (r : List Nat),
      readBytes 64 (List.replicate 64 (0 : Nat) ++ r) =
        .ok (List.replicate 64 0, r) := by
    intro r
    have := readBytes_append (List.replicate 64 (0 : Nat)) r
    rwa [List.length_replicate] at this
  rw [hm64]
  dsimp only
  rw [readI32_writeI32Nat _ _ hcountA]
  dsimp only
  rw [i32AsUsize_ofNat _ hcountA]
  have hfents : ∀ m ∈ (writeFilesAssigned cm ct p).map
      (fun (e : FileMetaData × List Nat) => e.1),
      m.path.length < 2 ^ 31 ∧ utf8Valid m.path = true ∧
      m.offset < 2 ^ 64 ∧ m.size < 2 ^ 64 := by
    intro m hmem
    rw [List.mem_map] at hmem
    obtain ⟨e, he, hme⟩ := hmem
    rw [← hme]
    exact hfacts e he
  have hmm : ((writeFilesAssigned cm ct p).map
      (fun (e : FileMetaData × List Nat) => entryBytes e.1)) =
      ((writeFilesAssigned cm ct p).map
        (fun (e : FileMetaData × List Nat) => e.1)).map entryBytes := by
    rw [List.map_map]
    rfl
  have hlenm : (writeFilesAssigned cm ct p).length =
      ((writeFilesAssigned cm ct p).map
        (fun (e : FileMetaData × List Nat) => e.1)).length := by
    rw [List.length_map]
  rw [hmm, hlenm, readEntries_entryBytes _ _ hfents]
  dsimp only
  rw [List.map_map]
  rfl

theorem assignOffsets_ge :
    ∀ (l : List (FileMetaData × List Nat)) (off : Nat)
      (e : FileMetaData × List Nat), e ∈ assignOffsets off l →
    off ≤ e.1.offset := by
  intro l
  induction l with
  | nil => intro off e he; simp [assignOffsets] at he
  | cons x t ih =>
    intro off e he
    obtain ⟨m, d⟩ := x
    rw [assignOffsets] at he
    rcases List.mem_cons.mp he with hh | hh
    · rw [hh]
    · have := ih (off + m.size) e hh
      omega

theorem assignOffsets_chain :
    ∀ (l : List (FileMetaData × List Nat)) (off : Nat),
    List.Chain' (fun (a b : FileMetaData × List Nat) => a.1.offset ≤ b.1.offset)
      (assignOffsets off l) := by
  intro l
  induction l with
  | nil => intro off; simp [assignOffsets]
  | cons x t ih =>
    intro off
    obtain ⟨m, d⟩ := x
    rw [assignOffsets, List.chain'_cons']
    refine ⟨?_, ih (off + m.size)⟩
    intro y hy
    have h1 := assignOffsets_ge t (off + m.size) y (List.mem_of_mem_head? hy)
    show off ≤ y.1.offset
    omega

theorem decoded_chain (cm : Codec PackMeta) (ct : Codec Tags) (p : AssetPack) :
    List.Chain' (fun a b => entryLe a b = true)
      ((writeFilesAssigned cm ct p).map
        (fun e => (⟨normalizePath e.1.path, e.1.offset, e.1.size,
          List.replicate 16 0⟩ : FileMetaData))) := by
  rw [List.chain'_map]
  have hch := assignOffsets_chain (writeFiles cm ct p)
    (calculate_files_block_starting_offset (writeFiles cm ct p))
  exact List.Chain'.imp
    (fun a b hab => by
      simp only [entryLe, decide_eq_true_eq]
      exact hab) hch

theorem insSorted_of_le (x y : FileMetaData) (ys : List FileMetaData)
    (h : entryLe x y = true) : insSorted x (y :: ys) = x :: y :: ys := by
  rw [insSorted, if_pos h]

theorem insSort_of_chain :
    ∀ (l : List FileMetaData), List.Chain' (fun a b => entryLe a b = true) l →
    insSort l = l := by
  intro l
  induction l with
  | nil => intro _; rfl
  | cons x t ih =>
    intro h
    rw [List.chain'_cons'] at h
    rw [insSort, ih h.2]
    cases t with
    | nil => rfl
    | cons y ys => exact insSorted_of_le x y ys (h.1 y rfl)

theorem classifySteps_cons (cm : Codec PackMeta) (ct : Codec Tags)
    (m : FileMetaData) (d : List Nat) (t : List (FileMetaData × List Nat))
    (st : ReadState) :
    classifySteps cm ct ((m, d) :: t) st =
      match classifyStep cm ct st m d with
      | .error e => .error e
      | .ok st2 => classifySteps cm ct t st2 := rfl

theorem classifyFold_eq_steps (cm : Codec PackMeta) (ct : Codec Tags) :
    ∀ (l : List (FileMetaData × List Nat)) (st : ReadState),
    (∀ e ∈ l, e.1.size = e.2.length) →
    classifyFold cm ct (l.map (fun e => e.1)) ((l.map (fun e => e.2)).flatten) st =
      classifySteps cm ct l st := by
  intro l
  induction l with
  | nil => intro st _; rfl
  | cons x t ih =>
    intro st hsz
    obtain ⟨m, d⟩ := x
    have hd : m.size = d.length := hsz (m, d) (List.mem_cons_self _ _)
    simp only [List.map_cons, List.flatten_cons, classifyFold, classifySteps]
    rw [hd, readBytes_append]
    dsimp only
    cases hcs : classifyStep cm ct st m d with
    | error e => rfl
    | ok st2 => exact ih st2 (fun e he => hsz e (List.mem_cons_of_mem _ he))

theorem classifyStep_path_eq (cm : Codec PackMeta) (ct : Codec Tags)
    (st : ReadState) (m1 m2 : FileMetaData) (d : List Nat)
    (h : m1.path = m2.path) :
    classifyStep cm ct st m1 d = classifyStep cm ct st m2 d := by
  rw [classifyStep, classifyStep, h]

theorem classifySteps_congr (cm : Codec PackMeta) (ct : Codec Tags) :
    ∀ (l1 l2 : List (FileMetaData × List Nat)),
    l1.map (fun e => (e.1.path, e.2)) = l2.map (fun e => (e.1.path, e.2)) →
    ∀ st, classifySteps cm ct l1 st = classifySteps cm ct l2 st := by
  intro l1
  induction l1 with
  | nil =>
    intro l2 h st
    cases l2 with
    | nil => rfl
    | cons y t2 => simp at h
  | cons x t1 ih =>
    intro l2 h st
    cases l2 with
    | nil => simp at h
    | cons y t2 =>
      obtain ⟨m1, d1⟩ := x
      obtain ⟨m2, d2⟩ := y
      simp only [List.map_cons, List.cons.injEq, Prod.mk.injEq] at h
      obtain ⟨⟨hp, hd⟩, htl⟩ := h
      simp only [classifySteps]
      rw [hd, classifyStep_path_eq cm ct st m1 m2 d2 hp]
      cases hcs : classifyStep cm ct st m2 d2 with
      | error e => rfl
      | ok st2 => exact ih t2 htl st2

theorem classifySteps_append (cm : Codec PackMeta) (ct : Codec Tags) :
    ∀ (a b : List (FileMetaData × List Nat)) (st : ReadState),
    classifySteps cm ct (a ++ b) st =
      match classifySteps cm ct a st with
      | .error e => .error e
      | .ok st2 => classifySteps cm ct b st2 := by
  intro a
  induction a with
  | nil => intro b st; rfl
  | cons x t ih =>
    intro b st
    obtain ⟨m, d⟩ := x
    simp only [List.cons_append, classifySteps]
    cases hcs : classifyStep cm ct st m d with
    | error e => rfl
    | ok st2 => exact ih b st2

theorem classifySteps_objects (cm : Codec PackMeta) (ct : Codec Tags)
    (l : List (FileMetaData × List Nat))
    (hf : ∀ e ∈ l, is_root_json_file e.1.path = false ∧
      is_tags_file e.1.path = false ∧ is_objects_file e.1.path = true) :
    ∀ st, classifySteps cm ct l st = .ok { st with object_files := (
      l.foldl (fun acc e => insertA acc e.1.path e.2) st.object_files) } := by
  induction l with
  | nil => intro st; rfl
  | cons x t ih =>
    intro st
    obtain ⟨m, d⟩ := x
    obtain ⟨hr, htg, hob⟩ := hf (m, d) (List.mem_cons_self _ _)
    simp only [classifySteps, classifyStep]
    rw [if_neg (by simp [hr]), if_neg (by simp [htg]), if_pos hob]
    dsimp only
    rw [List.foldl_cons]
    exact ih (fun e he => hf e (List.mem_cons_of_mem _ he))
      { st with object_files := insertA st.object_files m.path d }

theorem classifySteps_others (cm : Codec PackMeta) (ct : Codec Tags)
    (l : List (FileMetaData × List Nat))
    (hf : ∀ e ∈ l, is_root_json_file e.1.path = false ∧
      is_tags_file e.1.path = false ∧ is_objects_file e.1.path = false ∧
      is_pack_file e.1.path = false) :
    ∀ st, classifySteps cm ct l st = .ok { st with other_files := (
      l.foldl (fun acc e => insertA acc e.1.path e.2) st.other_files) } := by
  induction l with
  | nil => intro st; rfl
  | cons x t ih =>
    intro st
    obtain ⟨m, d⟩ := x
    obtain ⟨hr, htg, hob, hpk⟩ := hf (m, d) (List.mem_cons_self _ _)
    simp only [classifySteps, classifyStep]
    rw [if_neg (by simp [hr]), if_neg (by simp [htg]), if_neg (by simp [hob]),
      if_neg (by simp [hpk])]
    dsimp only
    rw [List.foldl_cons]
    exact ih (fun e he => hf e (List.mem_cons_of_mem _ he))
      { st with other_files := insertA st.other_files m.path d }

theorem insertA_append {α : Type} (m : List (Str × α)) (k : Str) (v : α)
    (h : containsKey k m = false) : insertA m k v = m ++ [(k, v)] := by
  induction m with
  | nil => rfl
  | cons kv t ih =>
    obtain ⟨k0, v0⟩ := kv
    simp only [containsKey, List.any_cons, Bool.or_eq_false_iff,
      beq_eq_false_iff_ne] at h
    obtain ⟨hk0, ht⟩ := h
    rw [insertA, if_neg hk0, ih ht]
    rfl

theorem foldl_insertA_fresh {α : Type} :
    ∀ (l acc : List (Str × α)),
    (∀ kv ∈ l, containsKey kv.1 acc = false) → keysNodupB l = true →
    l.foldl (fun m kv => insertA m kv.1 kv.2) acc = acc ++ l := by
  intro l
  induction l with
  | nil => intro acc _ _; simp
  | cons kv t ih =>
    intro acc hfr hnd
    obtain ⟨k, v⟩ := kv
    simp only [keysNodupB, Bool.and_eq_true, Bool.not_eq_true'] at hnd
    obtain ⟨hkt, hndt⟩ := hnd
    have hacc : insertA acc k v = acc ++ [(k, v)] :=
      insertA_append acc k v (hfr (k, v) (List.mem_cons_self _ _))
    have hfr2 : ∀ kv2 ∈ t, containsKey kv2.1 (acc ++ [(k, v)]) = false := by
      intro kv2 hkv2
      have hc1 : containsKey kv2.1 acc = false :=
        hfr kv2 (List.mem_cons_of_mem _ hkv2)
      have hc2 : k ≠ kv2.1 := by
        intro he
        have hcc : containsKey k t = true := by
          rw [containsKey, List.any_eq_true]
          refine ⟨kv2, hkv2, ?_⟩
          rw [beq_iff_eq]
          exact he.symm
        rw [hcc] at hkt
        exact absurd hkt (by simp)
      rw [containsKey, List.any_append]
      have hc1x : List.any acc (fun kv0 => kv0.1 == kv2.1) = false := hc1
      rw [hc1x, Bool.false_or]
      simp only [List.any_cons, List.any_nil, Bool.or_false]
      rw [beq_eq_false_iff_ne]
      exact hc2
    have hstep := ih (acc ++ [(k, v)]) hfr2 hndt
    rw [List.foldl_cons,
      show insertA acc (k, v).1 (k, v).2 = insertA acc k v from rfl,
      hacc, hstep, ← List.append_cons]

theorem assignOffsets_map_pathF {β : Type} (F : Str → List Nat → β) :
    ∀ (l : List (FileMetaData × List Nat)) (off : Nat),
    (assignOffsets off l).map (fun e => F e.1.path e.2) =
      l.map (fun e => F e.1.path e.2) := by
  intro l
  induction l with
  | nil => intro off; rfl
  | cons x t ih =>
    intro off
    obtain ⟨m, d⟩ := x
    rw [assignOffsets, List.map_cons, List.map_cons, ih]

theorem classifySteps_specials (cm : Codec PackMeta) (ct : Codec Tags)
    (meta : PackMeta) (tg : Tags) (hm : cm.lawful) (ht : ct.lawful)
    (hroot1 : is_root_json_file (meta.id ++ dotJson) = true) (st : ReadState) :
    classifySteps cm ct
      [(FileMetaData.new (meta.id ++ dotJson) (cm.enc meta).length, cm.enc meta),
       (FileMetaData.new packFileName (cm.enc meta).length, cm.enc meta),
       (FileMetaData.new tagsFileName (ct.enc tg).length, ct.enc tg)] st =
      .ok { st with maybe_meta := some meta, maybe_tags := some tg } := by
  rw [classifySteps_cons]
  have hstep1 : classifyStep cm ct st
      (FileMetaData.new (meta.id ++ dotJson) (cm.enc meta).length)
      (cm.enc meta) = .ok { st with maybe_meta := some meta } := by
    rw [classifyStep]
    rw [if_pos (show is_root_json_file
      (FileMetaData.new (meta.id ++ dotJson) (cm.enc meta).length).path = true
      from hroot1)]
    rw [hm meta]
  rw [hstep1]
  dsimp only
  rw [classifySteps_cons]
  have hstep2 : classifyStep cm ct { st with maybe_meta := some meta }
      (FileMetaData.new packFileName (cm.enc meta).length)
      (cm.enc meta) = .ok { st with maybe_meta := some meta } := by
    rw [classifyStep]
    rw [if_pos (show is_root_json_file
      (FileMetaData.new packFileName (cm.enc meta).length).path = true
      from (by decide : is_root_json_file packFileName = true))]
    rw [hm meta]
  rw [hstep2]
  dsimp only
  rw [classifySteps_cons]
  have hstep3 : classifyStep cm ct { st with maybe_meta := some meta }
      (FileMetaData.new tagsFileName (ct.enc tg).length) (ct.enc tg) =
      .ok { st with maybe_meta := some meta, maybe_tags := some tg } := by
    rw [classifyStep]
    rw [if_neg (show ¬ is_root_json_file
      (FileMetaData.new tagsFileName (ct.enc tg).length).path = true
      from (by decide : ¬ is_root_json_file tagsFileName = true))]
    rw [if_pos (show is_tags_file
      (FileMetaData.new tagsFileName (ct.enc tg).length).path = true
      from (by decide : is_tags_file tagsFileName = true))]
    rw [ht tg]
  rw [hstep3]
  dsimp only
  rfl

theorem FileMetaData.new_path (p : Str) (n : Nat) :
    (FileMetaData.new p n).path = p := rfl

/-- Claim C1 (amended): for every pack `p` satisfying the section-3
invariants whose id is not the literal segment `packs` (for that id the
repeated `packs/` stripping of the path normalizer misfiles every
in-namespace entry, see the counterexample), and whose encoded form fits
the fixed-width header fields, reading back the written stream succeeds
and returns `p` itself: `godot_version`, `meta`, `tags` and both file
maps (keys and payload bytes) are recovered; offsets and checksums are
recomputed on the way and are not part of the comparison. -/
theorem C1_roundtrip (cm : Codec PackMeta) (ct : Codec Tags) (p : AssetPack)
    (hm : cm.lawful) (ht : ct.lawful) (hv : ValidPack p)
    (hid : p.meta.id ≠ packsSeg) (hs : SizeOk cm ct p) :
    from_read cm ct (to_write cm ct p) = .ok p := by
  have hvKeep := hv
  simp only [ValidPack, validPackB, Bool.and_eq_true, decide_eq_true_eq,
    List.all_eq_true] at hvKeep
  obtain ⟨⟨⟨⟨⟨⟨⟨⟨⟨⟨hidne, hid47⟩, hidu⟩, _⟩, _⟩, _⟩, _⟩, hndo⟩, hndt⟩,
    hao⟩, hat⟩ := hvKeep
  have hszW : ∀ e ∈ writeFilesAssigned cm ct p, e.1.size = e.2.length := by
    rw [writeFilesAssigned]
    exact assignOffsets_sizes _ _ (writeFiles_sizes cm ct p)
  rw [from_read, parseDirectory_to_write cm ct p hv hs]
  dsimp only
  rw [insSort_of_chain _ (decoded_chain cm ct p)]
  have hLfst : (writeFilesAssigned cm ct p).map
      (fun e => (⟨normalizePath e.1.path, e.1.offset, e.1.size,
        List.replicate 16 0⟩ : FileMetaData)) =
      ((writeFilesAssigned cm ct p).map
        (fun e => ((⟨normalizePath e.1.path, e.1.offset, e.1.size,
          List.replicate 16 0⟩ : FileMetaData), e.2))).map (fun e => e.1) := by
    rw [List.map_map]
    rfl
  have hLsnd : ((writeFilesAssigned cm ct p).map (fun e => e.2)).flatten =
      (((writeFilesAssigned cm ct p).map
        (fun e => ((⟨normalizePath e.1.path, e.1.offset, e.1.size,
          List.replicate 16 0⟩ : FileMetaData), e.2))).map
        (fun e => e.2)).flatten := by
    rw [List.map_map]
    rfl
  rw [hLfst, hLsnd]
  have hszL : ∀ e ∈ ((writeFilesAssigned cm ct p).map
      (fun e => ((⟨normalizePath e.1.path, e.1.offset, e.1.size,
        List.replicate 16 0⟩ : FileMetaData), e.2))),
      e.1.size = e.2.length := by
    intro e he
    rw [List.mem_map] at he
    obtain ⟨a, ha, hae⟩ := he
    rw [← hae]
    show a.1.size = a.2.length
    exact hszW a ha
  rw [classifyFold_eq_steps cm ct _ _ hszL]
  have hsh1 : packPathPfx p.meta.id ++ dotJson =
      resPfx ++ (packsPfx ++ (p.meta.id ++ dotJson)) := by
    simp [packPathPfx, List.append_assoc]
  have hsh2 : ∀ x : Str, packPathPfx p.meta.id ++ 47 :: x =
      resPfx ++ (packsPfx ++ (p.meta.id ++ 47 :: x)) := by
    intro x
    simp [packPathPfx, List.append_assoc]
  have hn1 : normalizePath (packPathPfx p.meta.id ++ dotJson) =
      p.meta.id ++ dotJson := by
    rw [hsh1, normalizePath, normalizeSplit_root_json p.meta.id hid47]
  have hn2 : ∀ x : Str, normalizePath (packPathPfx p.meta.id ++ 47 :: x) = x := by
    intro x
    rw [hsh2 x, normalizePath, normalizeSplit_stored p.meta.id x hid47 hid]
  have htail3 : ((p.object_files ++ p.other_files).map
      (fun kv => (FileMetaData.new (packPathPfx p.meta.id ++ 47 :: kv.1)
        kv.2.length, kv.2))).map (fun e => (normalizePath e.1.path, e.2)) =
      (p.object_files ++ p.other_files).map (fun kv => (kv.1, kv.2)) := by
    rw [List.map_map]
    apply List.map_congr_left
    intro kv hkv
    show (normalizePath (packPathPfx p.meta.id ++ 47 :: kv.1), kv.2) =
      (kv.1, kv.2)
    rw [hn2 kv.1]
  have hstage1 : (((writeFilesAssigned cm ct p).map
      (fun e => ((⟨normalizePath e.1.path, e.1.offset, e.1.size,
        List.replicate 16 0⟩ : FileMetaData), e.2))).map
      (fun e => (e.1.path, e.2))) =
      (writeFilesAssigned cm ct p).map
        (fun e => (normalizePath e.1.path, e.2)) := by
    rw [List.map_map]
    apply List.map_congr_left
    intro e he
    rfl
  have hstage2 : (writeFilesAssigned cm ct p).map
      (fun e => (normalizePath e.1.path, e.2)) =
      (writeFiles cm ct p).map (fun e => (normalizePath e.1.path, e.2)) := by
    rw [writeFilesAssigned]
    exact assignOffsets_map_pathF (fun pth d => (normalizePath pth, d)) _ _
  have hstage3 : (writeFiles cm ct p).map
      (fun e => (normalizePath e.1.path, e.2)) =
      (p.meta.id ++ dotJson, cm.enc p.meta) :: (packFileName, cm.enc p.meta) ::
      (tagsFileName, ct.enc p.tags) ::
      (p.object_files ++ p.other_files).map (fun kv => (kv.1, kv.2)) := by
    simp only [writeFiles, List.map_cons, FileMetaData.new_path]
    rw [hn1, hn2 packFileName, hn2 tagsFileName, htail3]
  have htail4 : (p.object_files ++ p.other_files).map (fun kv => (kv.1, kv.2)) =
      ((p.object_files ++ p.other_files).map
        (fun kv => (FileMetaData.new kv.1 kv.2.length, kv.2))).map
        (fun e => (e.1.path, e.2)) := by
    rw [List.map_map]
    apply List.map_congr_left
    intro kv hkv
    rfl
  have hstage4 : (p.meta.id ++ dotJson, cm.enc p.meta) ::
      (packFileName, cm.enc p.meta) :: (tagsFileName, ct.enc p.tags) ::
      (p.object_files ++ p.other_files).map (fun kv => (kv.1, kv.2)) =
      ((FileMetaData.new (p.meta.id ++ dotJson) (cm.enc p.meta).length,
          cm.enc p.meta) ::
        (FileMetaData.new packFileName (cm.enc p.meta).length, cm.enc p.meta) ::
        (FileMetaData.new tagsFileName (ct.enc p.tags).length, ct.enc p.tags) ::
        (p.object_files ++ p.other_files).map
          (fun kv => (FileMetaData.new kv.1 kv.2.length, kv.2))).map
        (fun e => (e.1.path, e.2)) := by
    rw [htail4]
    rfl
  have hproj := (hstage1.trans (hstage2.trans hstage3)).trans hstage4
  rw [classifySteps_congr cm ct _ _ hproj]
  rw [show ((FileMetaData.new (p.meta.id ++ dotJson) (cm.enc p.meta).length,
        cm.enc p.meta) ::
      (FileMetaData.new packFileName (cm.enc p.meta).length, cm.enc p.meta) ::
      (FileMetaData.new tagsFileName (ct.enc p.tags).length, ct.enc p.tags) ::
      (p.object_files ++ p.other_files).map
        (fun kv => (FileMetaData.new kv.1 kv.2.length, kv.2))) =
      ([(FileMetaData.new (p.meta.id ++ dotJson) (cm.enc p.meta).length,
          cm.enc p.meta),
        (FileMetaData.new packFileName (cm.enc p.meta).length, cm.enc p.meta),
        (FileMetaData.new tagsFileName (ct.enc p.tags).length, ct.enc p.tags)] ++
        (p.object_files ++ p.other_files).map
          (fun kv => (FileMetaData.new kv.1 kv.2.length, kv.2)))
      from rfl]
  rw [classifySteps_append]
  rw [classifySteps_specials cm ct p.meta p.tags hm ht
    (is_root_json_of_id p.meta.id hid47 hidne)]
  dsimp only
  rw [List.map_append, classifySteps_append]
  have hfobj : ∀ e ∈ p.object_files.map
      (fun kv => (FileMetaData.new kv.1 kv.2.length, kv.2)),
      is_root_json_file e.1.path = false ∧ is_tags_file e.1.path = false ∧
      is_objects_file e.1.path = true := by
    intro e he
    rw [List.mem_map] at he
    obtain ⟨kv, hkv, hke⟩ := he
    rw [← hke]
    have hva := hao kv hkv
    simp only [validKeyObj, Bool.and_eq_true, Bool.not_eq_true'] at hva
    obtain ⟨⟨hobj, htag⟩, _⟩ := hva
    refine ⟨?_, ?_, ?_⟩
    · show is_root_json_file kv.1 = false
      exact obj_not_root kv.1 hobj
    · exact htag
    · exact hobj
  rw [classifySteps_objects cm ct _ hfobj]
  dsimp only
  have hfoldo : List.foldl (fun acc (e : FileMetaData × List Nat) =>
      insertA acc e.1.path e.2) []
      (p.object_files.map (fun kv => (FileMetaData.new kv.1 kv.2.length, kv.2))) =
      p.object_files := by
    rw [List.foldl_map]
    exact foldl_insertA_fresh p.object_files [] (fun kv _ => rfl) hndo
  rw [hfoldo]
  have hfoth : ∀ e ∈ p.other_files.map
      (fun kv => (FileMetaData.new kv.1 kv.2.length, kv.2)),
      is_root_json_file e.1.path = false ∧ is_tags_file e.1.path = false ∧
      is_objects_file e.1.path = false ∧ is_pack_file e.1.path = false := by
    intro e he
    rw [List.mem_map] at he
    obtain ⟨kv, hkv, hke⟩ := he
    rw [← hke]
    have hva := hat kv hkv
    simp only [validKeyOther, Bool.and_eq_true, Bool.not_eq_true'] at hva
    obtain ⟨⟨⟨⟨hnob, hnroot⟩, hntag⟩, hnpack⟩, _⟩ := hva
    exact ⟨hnroot, hntag, hnob, hnpack⟩
  rw [classifySteps_others cm ct _ hfoth]
  dsimp only
  have hfoldt : List.foldl (fun acc (e : FileMetaData × List Nat) =>
      insertA acc e.1.path e.2) []
      (p.other_files.map (fun kv => (FileMetaData.new kv.1 kv.2.length, kv.2))) =
      p.other_files := by
    rw [List.foldl_map]
    exact foldl_insertA_fresh p.other_files [] (fun kv _ => rfl) hndt
  rw [hfoldt]
  rfl

set_option maxRecDepth 8000 in
/-- Claim C1 counterexample: the pack `cePack` satisfies the section-3
invariants and the size conditions, yet writing it and reading the stream
back does not return it: its id is the literal segment `packs`, so
`trim_start_matches` strips `packs/` twice on every in-namespace stored
path, the tag index is misfiled under `default.dungeondraft_tags` and the
object file under `objects/a.png`, both into `other_files`. -/
theorem C1_counterexample :
    ValidPack cePack ∧ SizeOk metaCodecW tagsCodecW cePack ∧
    from_read metaCodecW tagsCodecW (to_write metaCodecW tagsCodecW cePack) ≠
      .ok cePack := by
  refine ⟨(by decide : validPackB cePack = true),
    (by decide : sizeOkB metaCodecW tagsCodecW cePack = true), ?_⟩
  intro h
  have hq : from_read metaCodecW tagsCodecW (to_write metaCodecW tagsCodecW cePack) =
      .ok ⟨⟨1, 0, 0, 0⟩, ⟨[], packsSeg, [], [], none⟩, Tags.new, [],
        [([100, 101, 102, 97, 117, 108, 116, 46, 100, 117, 110, 103, 101, 111,
           110, 100, 114, 97, 102, 116, 95, 116, 97, 103, 115],
          encTags Tags.new),
         ([111, 98, 106, 101, 99, 116, 115, 47, 97, 46, 112, 110, 103],
          [9])]⟩ := by rfl
  rw [hq] at h
  injection h with h2
  exact absurd h2 (by decide)

set_option maxRecDepth 8000 in
/-- Claim C1 witness: the concrete pack `wPack` (id `x`, one object file,
one other file) with the concrete lawful codecs satisfies every
hypothesis, and writing then reading it returns it unchanged. -/
theorem C1_roundtrip_witness :
    Codec.lawful metaCodecW ∧ Codec.lawful tagsCodecW ∧ ValidPack wPack ∧
    wPack.meta.id ≠ packsSeg ∧ SizeOk metaCodecW tagsCodecW wPack ∧
    from_read metaCodecW tagsCodecW (to_write metaCodecW tagsCodecW wPack) =
      .ok wPack :=
  ⟨metaCodecW_lawful, tagsCodecW_lawful,
    (by decide : validPackB wPack = true), by decide,
    (by decide : sizeOkB metaCodecW tagsCodecW wPack = true),
    C1_roundtrip metaCodecW tagsCodecW wPack metaCodecW_lawful tagsCodecW_lawful
      (by decide : validPackB wPack = true) (by decide)
      (by decide : sizeOkB metaCodecW tagsCodecW wPack = true)⟩

end DD
